import Mathlib

/-!
Verification development for the broad-phase collision `Layer` (src/src/layer.rs).

Shallow embedding conventions:

* Cell codes (`Index`, an external `SpatialIndex` capability) are modelled as
  root paths: `Idx := List Nat`, where `depth` is the list length, `subdivide`
  appends one more step, `overlaps` is the (symmetric) list-prefix relation and
  the total order is prefix-first lexicographic.  This realises the spec's
  contract for the opaque index: child ranges are contiguous, cover the parent,
  and an ancestor precedes its whole subtree in the total order.
* Object ids are `Nat`; `f32` distances are `WithTop ℚ` (`⊤` stands for any
  non-finite float, matching `is_finite`); `f32::min` is `min` on `WithTop ℚ`.
* Mutable callback captures (`FnMut`) are explicit state threading through a
  state type `σ`; a Rust panic is `Except.error ()`.
* `Index::subdivide` returns `None` exactly at the maximal representable depth
  `MD`; `test_impl` carries the remaining depth as `fuel` (callers start at the
  root with `fuel = MD`, so `fuel = MD - cell.depth` throughout).
-/

abbrev Qi := WithTop ℚ

abbrev Idx := List Nat

abbrev Entry := Idx × Nat

/-- Prefix-first lexicographic strict order on cell codes: the total order of
the opaque `SpatialIndex`, in which an ancestor cell comes right before its
subtree and child ranges are contiguous. -/
def idxLtB : Idx → Idx → Bool
  | [], [] => false
  | [], _ :: _ => true
  | _ :: _, [] => false
  | a :: as, b :: bs => a < b || (a == b && idxLtB as bs)

def idxLeB (a b : Idx) : Bool := idxLtB a b || a == b

/-- `isAncB a b`: cell `a` is an ancestor of (or equal to) cell `b`, i.e. `a`
is a list prefix of `b`.  Spatial containment of the opaque index. -/
def isAncB : Idx → Idx → Bool
  | [], _ => true
  | _ :: _, [] => false
  | a :: as, b :: bs => a == b && isAncB as bs

/-- `Index::overlaps`: one cell is an ancestor of the other. -/
def overlapsB (a b : Idx) : Bool := isAncB a b || isAncB b a

/-- Modelled from the spec: `SpatialIndex::same_cell_at_depth(a, b, d)` of the
external index capability is true iff `a` and `b` share an ancestor at depth
`d`; in the path model that is equality of the first `d` steps. -/
def sameCellB (a b : Idx) (d : Nat) : Bool := a.take d == b.take d

/-- Total order on `(Index, ID)` entries used by `sort_unstable`
(derived tuple `Ord`: cell first, then id). -/
def entryLe (a b : Entry) : Prop :=
  idxLtB a.1 b.1 = true ∨ (a.1 = b.1 ∧ a.2 ≤ b.2)

instance : DecidableRel entryLe := fun a b => by
  unfold entryLe; exact inferInstance

/-- Order on emitted `(ID, ID)` pairs used by `collisions.sort_unstable`. -/
def pairLe (a b : Nat × Nat) : Prop :=
  a.1 < b.1 ∨ (a.1 = b.1 ∧ a.2 ≤ b.2)

instance : DecidableRel pairLe := fun a b => by
  unfold pairLe; exact inferInstance

def natLe (a b : Nat) : Prop := a ≤ b

instance : DecidableRel natLe := fun a b => by
  unfold natLe; exact inferInstance

/-- `Vec::dedup`: remove consecutive duplicates, keeping the first of each run. -/
def dedupAdj {α : Type} [DecidableEq α] : List α → List α
  | [] => []
  | [a] => [a]
  | a :: b :: rest => if a = b then dedupAdj (b :: rest) else a :: dedupAdj (b :: rest)

/-- The pop loop of `scan_impl`: pop the ancestor stack (head = top) while its
top does not overlap the current cell. -/
def popStack (c : Idx) (st : List Entry) : List Entry :=
  st.dropWhile (fun s => ! overlapsB c s.1)

/-- The emission loop of `scan_impl` for one entry with id `i`: walk the stack
bottom-to-top and emit `(i, id_)` for every stack entry passing the filter. -/
def emitsFor (f : Nat → Nat → Bool) (i : Nat) (st : List Entry) : List (Nat × Nat) :=
  st.reverse.filterMap (fun s => if i != s.2 && f i s.2 then some (i, s.2) else none)

/-- The ancestor-stack sweep of `scan_impl` over the sorted entry list.
State: `stack` (head = top of the `SmallVec`), `acc` (the collisions buffer). -/
def scanGo (f : Nat → Nat → Bool) : List Entry → List Entry → List (Nat × Nat) →
    List Entry × List (Nat × Nat)
  | stack, [], acc => (stack, acc)
  | stack, e :: rest, acc =>
    let st := popStack e.1 stack
    if st.any (fun s => s.2 == e.2) then
      scanGo f st rest acc
    else
      scanGo f (e :: st) rest (acc ++ emitsFor f e.2 st)

/-- `Layer::scan_impl`: run the sweep from an empty stack into an empty
collision buffer. -/
def scan_impl (f : Nat → Nat → Bool) (tree : List Entry) : List (Nat × Nat) :=
  (scanGo f [] tree []).2

/-- The safe-split search of `par_scan_impl`: starting from `i`, advance while
the two neighbouring entries share an ancestor cell at depth `md`. -/
def findSplit (md : Nat) (t : List Entry) (i : Nat) : Nat :=
  if h : i < t.length then
    if sameCellB (t.getD (i - 1) ([], 0)).1 (t.getD i ([], 0)).1 md then
      findSplit md t (i + 1)
    else i
  else i
termination_by t.length - i

/-- `Layer::par_scan_impl`.  The per-worker thread-local collision buffers are
modelled by concatenating the two forked halves' emissions in order (the final
caller sorts and dedups, so the drain order of the buffers is immaterial). -/
def par_scan_impl (md : Nat) (f : Nat → Nat → Bool) (threads : Nat)
    (tree : List Entry) : List (Nat × Nat) :=
  if threads ≤ 1 ∨ tree.length ≤ 64 then scan_impl f tree
  else
    let i := findSplit md tree (tree.length / 2)
    par_scan_impl md f (threads >>> 1) (tree.take i) ++
      par_scan_impl md f (threads >>> 1) (tree.drop i)
termination_by threads
decreasing_by
  all_goals rw [Nat.shiftRight_eq_div_pow, pow_one]
  all_goals omega

/-- The `scan`-style slice partition of `test_impl`: successively split the
slice at the start code of each child cell (binary search on a sorted slice
locates the first entry `≥` the child code, i.e. the `takeWhile`/`dropWhile`
boundary), yielding the parent-level remainder and one sub-slice per child. -/
def scanSplit : List Idx → List Entry → List (List Entry)
  | [], t => [t]
  | c :: cs, t =>
    t.takeWhile (fun e => idxLtB e.1 c) :: scanSplit cs (t.dropWhile (fun e => idxLtB e.1 c))

/-- The flat callback fold of `test_impl`: feed every id of the slice to the
callback, folding the returned distance into `nearest` via `min`. -/
def foldFlat {σ : Type} (cb : σ → Idx → Qi → Nat → Qi × σ) (cell : Idx)
    (t : List Entry) (n : Qi) (s : σ) : Qi × σ :=
  t.foldl (fun p e => let r := cb p.2 cell p.1 e.2; (min r.1 p.1, r.2)) (n, s)

/-- The child loop of `test_impl`: visit the children in `test_order`,
threading `nearest` and the callback state, propagating panics. -/
def test_children {σ : Type}
    (rec : List Entry → Idx → Qi → σ → Except Unit (Qi × σ)) :
    List Nat → List (List Entry) → List Idx → Qi → σ → Except Unit (Qi × σ)
  | [], _, _, n, s => .ok (n, s)
  | i :: rest, slices, cells, n, s =>
    match rec (slices.getD i []) (cells.getD i []) n s with
    | .error e => .error e
    | .ok r => test_children rec rest slices cells r.1 r.2

/-- `Layer::test_impl`, the recursive traversal kernel.  `st` is
`TestGeometry::should_test` and `ord` is `TestGeometry::test_order` of the
geometry obtained by lockstep subdivision down to the current cell (so they are
indexed by the cell path); `b = 2ⁿ` is the arity; `fuel` is the remaining depth
to the index's maximal depth (`subdivide` returns `None` exactly there). -/
def test_impl {σ : Type} (b : Nat) (st : Idx → Qi → Bool) (ord : Idx → List Nat)
    (maxDepth : Option Nat) (cb : σ → Idx → Qi → Nat → Qi × σ) :
    Nat → List Entry → Idx → Qi → σ → Except Unit (Qi × σ)
  | 0, t, cell, nearest, s =>
    match t with
    | [] => .ok (nearest, s)
    | e :: _ =>
      if ! st cell nearest then .ok (nearest, s)
      else if idxLtB e.1 cell || ! overlapsB cell (t.getLastD e).1 then .error ()
      else .ok (foldFlat cb cell t nearest s)
  | fuel + 1, t, cell, nearest, s =>
    match t with
    | [] => .ok (nearest, s)
    | e :: _ =>
      if ! st cell nearest then .ok (nearest, s)
      else if idxLtB e.1 cell || ! overlapsB cell (t.getLastD e).1 then .error ()
      else if (match maxDepth with | some d => decide (d ≤ cell.length) | none => false) then
        .ok (foldFlat cb cell t nearest s)
      else
        let cells := (List.range b).map (fun k => cell ++ [k])
        let pieces := scanSplit cells t
        let r0 := foldFlat cb cell (pieces.headD []) nearest s
        test_children (test_impl b st ord maxDepth cb fuel) (ord cell)
          pieces.tail cells r0.1 r0.2

/-- The callback of `Layer::pick`: state is `(processed, result)`; a repeated
id, or a non-finite distance, contributes `+∞` without recording a best hit;
a finite distance strictly below the cutoff records the id. -/
def pickCb (getDist : Idx → Qi → Nat → Qi) :
    List Nat × Option Nat → Idx → Qi → Nat → Qi × (List Nat × Option Nat) :=
  fun s c n i =>
    if i ∈ s.1 then (⊤, s)
    else (getDist c n i, (i :: s.1, if getDist c n i < n then some i else s.2))

/-- `Layer::pick` on a sorted tree: clear `processed`, run the kernel from the
root with `nearest = max_dist`, and return `(final_nearest, best_id)` when some
id was recorded. -/
def pickRun (b MD : Nat) (st : Idx → Qi → Bool) (ord : Idx → List Nat)
    (maxDist : Qi) (maxDepth : Option Nat) (getDist : Idx → Qi → Nat → Qi)
    (tree : List Entry) : Except Unit (Option (Qi × Nat)) :=
  (test_impl b st ord maxDepth (pickCb getDist) MD tree [] maxDist ([], none)).map
    (fun r => r.2.2.map (fun i => (r.1, i)))

/-- `Layer::test` on a sorted tree: run the kernel from the root with
`nearest = +∞` and a callback appending every visited id, then sort and dedup
the result buffer. -/
def testRun (b MD : Nat) (st : Idx → Qi → Bool) (ord : Idx → List Nat)
    (maxDepth : Option Nat) (tree : List Entry) : Except Unit (List Nat) :=
  (test_impl b st ord maxDepth (fun (s : List Nat) _c n i => (n, s ++ [i]))
      MD tree [] ⊤ []).map
    (fun r => dedupAdj (List.insertionSort natLe r.2))

/-- The persistent and scratch state of `Layer` (parallel thread-local buffers
are modelled inside `par_scan_filtered` itself). -/
structure Layer where
  min_depth : Nat
  tree : List Entry
  sorted : Bool
  collisions : List (Nat × Nat)
  test_results : List Nat
  processed : List Nat
  invalid : List Nat

/-- `Layer::clear`: reset the entry array and mark it sorted. -/
def Layer.clear (L : Layer) : Layer :=
  { L with tree := [], sorted := true }

/-- `Layer::sort` (and `par_sort`, which produces the same array since the
entry order is total): no-op when the flag is set, otherwise sort by
`(Index, ID)` and set the flag. -/
def Layer.sort (L : Layer) : Layer :=
  if L.sorted then L
  else { L with tree := List.insertionSort entryLe L.tree, sorted := true }

/-- `Layer::extend`.  The external capabilities are parameters: `contains` is
`system_bounds.contains`, and `inds` is
`system_bounds.to_local(bounds).indices(Some(min_depth))` (the opaque
`IndexGenerator`).  A rejected object id goes to `invalid`; an accepted object
appends one entry per generated cell and clears the sorted flag. -/
def Layer.extend {β : Type} (L : Layer) (contains : β → Bool) (inds : β → List Idx)
    (objs : List (β × Nat)) : Layer :=
  objs.foldl
    (fun acc obj =>
      if contains obj.1 then
        { acc with
          tree := acc.tree ++ (inds obj.1).map (fun ix => (ix, obj.2)),
          sorted := false }
      else { acc with invalid := acc.invalid ++ [obj.2] })
    L

/-- `Layer::merge`: adopt the smaller `min_depth`, append the other tree,
clear the sorted flag. -/
def Layer.merge (L other : Layer) : Layer :=
  { L with
    min_depth := if other.min_depth < L.min_depth then other.min_depth else L.min_depth,
    tree := L.tree ++ other.tree,
    sorted := false }

/-- `Layer::scan_filtered`: sort if needed, clear `collisions` and `invalid`,
sweep, then sort and dedup the collision buffer. -/
def Layer.scan_filtered (L : Layer) (f : Nat → Nat → Bool) : Layer × List (Nat × Nat) :=
  let L1 := L.sort
  let cols := dedupAdj (List.insertionSort pairLe (scan_impl f L1.tree))
  ({ L1 with collisions := cols, invalid := [] }, cols)

/-- `Layer::scan` = `scan_filtered` with the always-true filter. -/
def Layer.scan (L : Layer) : Layer × List (Nat × Nat) :=
  L.scan_filtered (fun _ _ => true)

/-- `Layer::par_scan_filtered`: parallel sort if needed, clear buffers, run the
fork/join scan with the pool's worker count, then sort and dedup. -/
def Layer.par_scan_filtered (L : Layer) (threads : Nat) (f : Nat → Nat → Bool) :
    Layer × List (Nat × Nat) :=
  let L1 := L.sort
  let cols := dedupAdj (List.insertionSort pairLe (par_scan_impl L1.min_depth f threads L1.tree))
  ({ L1 with collisions := cols, invalid := [] }, cols)

/-- `Layer::par_scan` = `par_scan_filtered` with the always-true filter. -/
def Layer.par_scan (L : Layer) (threads : Nat) : Layer × List (Nat × Nat) :=
  L.par_scan_filtered threads (fun _ _ => true)

/-- `Layer::pick`: implicit sort, then the kernel run of `pick`. -/
def Layer.pick (L : Layer) (b MD : Nat) (st : Idx → Qi → Bool) (ord : Idx → List Nat)
    (maxDist : Qi) (maxDepth : Option Nat) (getDist : Idx → Qi → Nat → Qi) :
    Except Unit (Option (Qi × Nat)) :=
  pickRun b MD st ord maxDist maxDepth getDist L.sort.tree

/-- `Layer::test`: implicit sort, then the kernel run of `testRun`. -/
def Layer.test (L : Layer) (b MD : Nat) (st : Idx → Qi → Bool) (ord : Idx → List Nat)
    (maxDepth : Option Nat) : Except Unit (List Nat) :=
  testRun b MD st ord maxDepth L.sort.tree

/-- Instrumentation of a kernel callback that additionally logs every
invocation `(cell, id)`; its first component behaves exactly like `cb`. -/
def logCb {σ : Type} (cb : σ → Idx → Qi → Nat → Qi × σ) :
    (σ × List (Idx × Nat)) → Idx → Qi → Nat → Qi × (σ × List (Idx × Nat)) :=
  fun s c n i => ((cb s.1 c n i).1, ((cb s.1 c n i).2, s.2 ++ [(c, i)]))

/-- One step of `pick`'s state on a fresh id with pure distance function `g`:
fold the returned distance into the cutoff, record the id on strict
improvement. -/
def pickFold (g : Nat → Qi) (p : Qi × Option Nat) (i : Nat) : Qi × Option Nat :=
  (min (g i) p.1, if g i < p.1 then some i else p.2)

/-- `pick`'s callback for a pure distance function `g`, instrumented with the
list of ids actually handed to `get_dist` (fresh ids only, in call order). -/
def pickCbI (g : Nat → Qi) :
    (List Nat × Option Nat) × List Nat → Idx → Qi → Nat →
      Qi × ((List Nat × Option Nat) × List Nat) :=
  fun s _c n i =>
    if i ∈ s.1.1 then (⊤, s)
    else (g i, ((i :: s.1.1, if g i < n then some i else s.1.2), s.2 ++ [i]))

/-- The entries `extend` appends for the accepted objects, in order. -/
def extendEntries {β : Type} (contains : β → Bool) (inds : β → List Idx)
    (objs : List (β × Nat)) : List Entry :=
  objs.foldr (fun o acc => if contains o.1 then (inds o.1).map (fun ix => (ix, o.2)) ++ acc else acc) []

/-- The ids `extend` pushes onto `invalid` for the rejected objects, in order. -/
def extendInvalid {β : Type} (contains : β → Bool) (objs : List (β × Nat)) : List Nat :=
  objs.foldr (fun o acc => if contains o.1 then acc else o.2 :: acc) []

/-! ## Basic facts about the cell-code order and the ancestor relation -/

theorem idxLtB_irrefl (a : Idx) : idxLtB a a = false := by
  induction a with
  | nil => rfl
  | cons x xs ih => simp [idxLtB, ih]

theorem idxLtB_trans {a b c : Idx} (hab : idxLtB a b = true) (hbc : idxLtB b c = true) :
    idxLtB a c = true := by
  induction a generalizing b c with
  | nil =>
    cases b with
    | nil => simp [idxLtB] at hab
    | cons y ys =>
      cases c with
      | nil => simp [idxLtB] at hbc
      | cons z zs => simp [idxLtB]
  | cons x xs ih =>
    cases b with
    | nil => simp [idxLtB] at hab
    | cons y ys =>
      cases c with
      | nil => simp [idxLtB] at hbc
      | cons z zs =>
        simp only [idxLtB, Bool.or_eq_true, Bool.and_eq_true, beq_iff_eq,
          decide_eq_true_eq] at hab hbc ⊢
        rcases hab with h1 | ⟨h1, h1'⟩ <;> rcases hbc with h2 | ⟨h2, h2'⟩
        · exact Or.inl (h1.trans h2)
        · exact Or.inl (h2 ▸ h1)
        · exact Or.inl (h1 ▸ h2)
        · exact Or.inr ⟨h1.trans h2, ih h1' h2'⟩

theorem idxLtB_total (a b : Idx) :
    idxLtB a b = true ∨ a = b ∨ idxLtB b a = true := by
  induction a generalizing b with
  | nil => cases b with
    | nil => simp [idxLtB]
    | cons y ys => simp [idxLtB]
  | cons x xs ih =>
    cases b with
    | nil => simp [idxLtB]
    | cons y ys =>
      rcases Nat.lt_trichotomy x y with h | h | h
      · exact Or.inl (by simp [idxLtB, h])
      · subst h
        rcases ih ys with h' | h' | h'
        · exact Or.inl (by simp [idxLtB, h'])
        · exact Or.inr (Or.inl (by rw [h']))
        · exact Or.inr (Or.inr (by simp [idxLtB, h']))
      · exact Or.inr (Or.inr (by simp [idxLtB, h]))

theorem idxLtB_asymm {a b : Idx} (hab : idxLtB a b = true) : idxLtB b a = false := by
  by_contra h
  rw [Bool.not_eq_false] at h
  have := idxLtB_trans hab h
  rw [idxLtB_irrefl] at this
  exact Bool.false_ne_true this

theorem idxLeB_iff {a b : Idx} : idxLeB a b = true ↔ idxLtB a b = true ∨ a = b := by
  simp [idxLeB]

theorem idxLeB_refl (a : Idx) : idxLeB a a = true := by simp [idxLeB]

theorem idxLeB_trans {a b c : Idx} (hab : idxLeB a b = true) (hbc : idxLeB b c = true) :
    idxLeB a c = true := by
  rw [idxLeB_iff] at hab hbc ⊢
  rcases hab with h1 | rfl
  · rcases hbc with h2 | rfl
    · exact Or.inl (idxLtB_trans h1 h2)
    · exact Or.inl h1
  · exact hbc

theorem idxLeB_antisymm {a b : Idx} (hab : idxLeB a b = true) (hba : idxLeB b a = true) :
    a = b := by
  rw [idxLeB_iff] at hab hba
  rcases hab with h1 | rfl
  · rcases hba with h2 | rfl
    · exact absurd (idxLtB_asymm h1) (by simp [h2])
    · rfl
  · rfl

theorem idxLeB_of_not_lt {a b : Idx} (h : idxLtB a b = false) : idxLeB b a = true := by
  rw [idxLeB_iff]
  rcases idxLtB_total a b with h' | h' | h'
  · rw [h'] at h; exact absurd h (by simp)
  · exact Or.inr h'.symm
  · exact Or.inl h'

theorem isAncB_refl (a : Idx) : isAncB a a = true := by
  induction a with
  | nil => rfl
  | cons x xs ih => simp [isAncB, ih]

theorem isAncB_trans {a b c : Idx} (hab : isAncB a b = true) (hbc : isAncB b c = true) :
    isAncB a c = true := by
  induction a generalizing b c with
  | nil => rfl
  | cons x xs ih =>
    cases b with
    | nil => simp [isAncB] at hab
    | cons y ys =>
      cases c with
      | nil => simp [isAncB] at hbc
      | cons z zs =>
        simp only [isAncB, Bool.and_eq_true, beq_iff_eq] at hab hbc ⊢
        exact ⟨hab.1.trans hbc.1, ih hab.2 hbc.2⟩

theorem idxLeB_of_anc {a b : Idx} (h : isAncB a b = true) : idxLeB a b = true := by
  induction a generalizing b with
  | nil =>
    cases b with
    | nil => rfl
    | cons y ys => simp [idxLeB, idxLtB]
  | cons x xs ih =>
    cases b with
    | nil => simp [isAncB] at h
    | cons y ys =>
      simp only [isAncB, Bool.and_eq_true, beq_iff_eq] at h
      obtain ⟨rfl, h2⟩ := h
      have := ih h2
      rw [idxLeB_iff] at this ⊢
      rcases this with h' | rfl
      · exact Or.inl (by simp [idxLtB, h'])
      · exact Or.inr rfl

theorem overlapsB_symm (a b : Idx) : overlapsB a b = overlapsB b a := by
  simp [overlapsB, Bool.or_comm]

theorem isAncB_of_overlaps_le {a b : Idx} (hov : overlapsB a b = true)
    (hle : idxLeB a b = true) : isAncB a b = true := by
  simp only [overlapsB, Bool.or_eq_true] at hov
  rcases hov with h | h
  · exact h
  · have := idxLeB_antisymm hle (idxLeB_of_anc h)
    subst this
    exact isAncB_refl a

/-- The layout lemma: in the total order, everything between an ancestor and
one of its descendants is itself a descendant of that ancestor. -/
theorem isAncB_of_between {a b c : Idx} (hab : isAncB a b = true)
    (hac : idxLeB a c = true) (hcb : idxLeB c b = true) : isAncB a c = true := by
  induction a generalizing b c with
  | nil => rfl
  | cons x xs ih =>
    cases b with
    | nil => simp [isAncB] at hab
    | cons y ys =>
      simp only [isAncB, Bool.and_eq_true, beq_iff_eq] at hab
      obtain ⟨rfl, hab2⟩ := hab
      cases c with
      | nil =>
        rw [idxLeB_iff] at hac
        rcases hac with h | h
        · simp [idxLtB] at h
        · exact absurd h (by simp)
      | cons z zs =>
        rw [idxLeB_iff] at hac hcb
        have hxz : x = z := by
          rcases hac with h1 | h1
          · rcases hcb with h2 | h2
            · simp only [idxLtB, Bool.or_eq_true, Bool.and_eq_true, beq_iff_eq,
                decide_eq_true_eq] at h1 h2
              rcases h1 with h1 | ⟨h1, _⟩ <;> rcases h2 with h2 | ⟨h2, _⟩ <;> omega
            · exact (List.cons.injEq _ _ _ _ ▸ h2).1.symm ▸ rfl
          · exact (List.cons.injEq _ _ _ _ ▸ h1).1
        subst hxz
        simp only [isAncB, Bool.and_eq_true, beq_iff_eq, true_and, beq_self_eq_true]
        refine ih hab2 ?_ ?_
        · rcases hac with h1 | h1
          · simp only [idxLtB, Bool.or_eq_true, Bool.and_eq_true, beq_iff_eq,
              decide_eq_true_eq] at h1
            rcases h1 with h1 | ⟨_, h1⟩
            · omega
            · exact idxLeB_iff.mpr (Or.inl h1)
          · obtain ⟨_, rfl⟩ := List.cons.injEq _ _ _ _ ▸ h1
            exact idxLeB_refl _
        · rcases hcb with h2 | h2
          · simp only [idxLtB, Bool.or_eq_true, Bool.and_eq_true, beq_iff_eq,
              decide_eq_true_eq] at h2
            rcases h2 with h2 | ⟨_, h2⟩
            · omega
            · exact idxLeB_iff.mpr (Or.inl h2)
          · obtain ⟨_, rfl⟩ := List.cons.injEq _ _ _ _ ▸ h2
            exact idxLeB_refl _

theorem idxLtB_append {c x y : Idx} : idxLtB (c ++ x) (c ++ y) = idxLtB x y := by
  induction c with
  | nil => rfl
  | cons a as ih => simp [idxLtB, ih]

theorem idxLtB_nil_right (x : Idx) : idxLtB x [] = false := by
  cases x <;> rfl

theorem idxLeB_append {c x y : Idx} : idxLeB (c ++ x) (c ++ y) = idxLeB x y := by
  simp only [idxLeB, idxLtB_append]
  congr 1
  rw [Bool.eq_iff_iff]
  simp

theorem isAncB_append {c x y : Idx} : isAncB (c ++ x) (c ++ y) = isAncB x y := by
  induction c with
  | nil => rfl
  | cons a as ih => simp [isAncB, ih]

theorem isAncB_append_right (c x : Idx) : isAncB c (c ++ x) = true := by
  have := isAncB_append (c := c) (x := ([] : Idx)) (y := x)
  simpa using this

theorem eq_append_of_anc {a b : Idx} (h : isAncB a b = true) : ∃ q, b = a ++ q := by
  induction a generalizing b with
  | nil => exact ⟨b, rfl⟩
  | cons x xs ih =>
    cases b with
    | nil => simp [isAncB] at h
    | cons y ys =>
      simp only [isAncB, Bool.and_eq_true, beq_iff_eq] at h
      obtain ⟨rfl, h2⟩ := h
      obtain ⟨q, rfl⟩ := ih h2
      exact ⟨q, rfl⟩

theorem idxLtB_cell_child (c : Idx) (k : Nat) : idxLtB c (c ++ [k]) = true := by
  induction c with
  | nil => rfl
  | cons x xs ih => simp [idxLtB, ih]

/-- A cell strictly between a parent and its first child equals the parent. -/
theorem eq_cell_of_between {c p : Idx} (hle : idxLeB c p = true)
    (hlt : idxLtB p (c ++ [0]) = true) : p = c := by
  have hanc : isAncB c p = true := by
    refine isAncB_of_between (isAncB_append_right c [0]) hle ?_
    exact idxLeB_iff.mpr (Or.inl hlt)
  obtain ⟨q, rfl⟩ := eq_append_of_anc hanc
  cases q with
  | nil => simp
  | cons d ds =>
    rw [idxLtB_append] at hlt
    cases d with
    | zero => simp [idxLtB, idxLtB_nil_right] at hlt
    | succ d' => simp [idxLtB] at hlt

/-- An entry in the half-open range of child `k` is a descendant of child `k`
(for the upper bound given by the next sibling's start code). -/
theorem isAncB_child_of_range {c p : Idx} {k : Nat} (hanc : isAncB c p = true)
    (hge : idxLeB (c ++ [k]) p = true) (hlt : idxLtB p (c ++ [k + 1]) = true) :
    isAncB (c ++ [k]) p = true := by
  obtain ⟨q, rfl⟩ := eq_append_of_anc hanc
  rw [idxLeB_append] at hge
  rw [idxLtB_append] at hlt
  rw [isAncB_append]
  cases q with
  | nil => simp [idxLeB, idxLtB] at hge
  | cons d ds =>
    rw [idxLeB_iff] at hge
    have hdk : d = k := by
      rcases hge with h1 | h1
      · simp only [idxLtB, Bool.or_eq_true, Bool.and_eq_true, beq_iff_eq,
          decide_eq_true_eq, idxLtB_nil_right] at h1
        simp only [idxLtB, Bool.or_eq_true, Bool.and_eq_true, beq_iff_eq,
          decide_eq_true_eq, idxLtB_nil_right] at hlt
        rcases h1 with h1 | ⟨h1, _⟩ <;>
          rcases hlt with h2 | ⟨h2, h2'⟩ <;>
          first
            | omega
            | (cases ds <;> simp [idxLtB] at h2')
      · exact ((List.cons.injEq _ _ _ _ ▸ h1).1).symm
    subst hdk
    simp [isAncB]

/-- An entry at or above the last child's start code, with in-bound steps,
is a descendant of the last child. -/
theorem isAncB_last_child {c p : Idx} {b : Nat} (hanc : isAncB c p = true)
    (hge : idxLeB (c ++ [b - 1]) p = true) (hb : 0 < b)
    (hwf : ∀ d ∈ p, d < b) : isAncB (c ++ [b - 1]) p = true := by
  obtain ⟨q, rfl⟩ := eq_append_of_anc hanc
  rw [idxLeB_append] at hge
  rw [isAncB_append]
  cases q with
  | nil => simp [idxLeB, idxLtB] at hge
  | cons d ds =>
    rw [idxLeB_iff] at hge
    have hdb : d < b := hwf d (by simp)
    have hdk : d = b - 1 := by
      rcases hge with h1 | h1
      · simp only [idxLtB, Bool.or_eq_true, Bool.and_eq_true, beq_iff_eq,
          decide_eq_true_eq] at h1
        rcases h1 with h1 | ⟨h1, _⟩ <;> omega
      · exact ((List.cons.injEq _ _ _ _ ▸ h1).1).symm
    subst hdk
    simp [isAncB]

theorem take_eq_of_anc {a x : Idx} (h : isAncB a x = true) {md : Nat}
    (hmd : md ≤ a.length) : x.take md = a.take md := by
  obtain ⟨q, rfl⟩ := eq_append_of_anc h
  rw [List.take_append_of_le_length hmd]

/-! ## Order instances and sorting/dedup infrastructure -/

instance : IsTotal Entry entryLe :=
  ⟨fun a b => by
    unfold entryLe
    rcases idxLtB_total a.1 b.1 with h | h | h
    · exact Or.inl (Or.inl h)
    · rcases Nat.le_total a.2 b.2 with h' | h'
      · exact Or.inl (Or.inr ⟨h, h'⟩)
      · exact Or.inr (Or.inr ⟨h.symm, h'⟩)
    · exact Or.inr (Or.inl h)⟩

instance : IsTrans Entry entryLe :=
  ⟨fun a b c hab hbc => by
    unfold entryLe at *
    rcases hab with h1 | ⟨h1, h1'⟩ <;> rcases hbc with h2 | ⟨h2, h2'⟩
    · exact Or.inl (idxLtB_trans h1 h2)
    · exact Or.inl (h2 ▸ h1)
    · exact Or.inl (h1 ▸ h2)
    · exact Or.inr ⟨h1.trans h2, h1'.trans h2'⟩⟩

theorem entryLe_antisymm {a b : Entry} (hab : entryLe a b) (hba : entryLe b a) : a = b := by
  unfold entryLe at *
  rcases hab with h1 | ⟨h1, h1'⟩ <;> rcases hba with h2 | ⟨h2, h2'⟩
  · exact absurd (idxLtB_asymm h1) (by simp [h2])
  · rw [h2] at h1; simp [idxLtB_irrefl] at h1
  · rw [h1] at h2; simp [idxLtB_irrefl] at h2
  · exact Prod.ext h1 (Nat.le_antisymm h1' h2')

instance : IsTotal (Nat × Nat) pairLe :=
  ⟨fun a b => by unfold pairLe; omega⟩

instance : IsTrans (Nat × Nat) pairLe :=
  ⟨fun a b c hab hbc => by unfold pairLe at *; omega⟩

theorem pairLe_antisymm {a b : Nat × Nat} (hab : pairLe a b) (hba : pairLe b a) : a = b := by
  unfold pairLe at *
  have h1 : a.1 = b.1 := by omega
  have h2 : a.2 = b.2 := by omega
  exact Prod.ext h1 h2

instance : IsTotal Nat natLe := ⟨fun a b => Nat.le_total a b⟩

instance : IsTrans Nat natLe := ⟨fun _ _ _ => Nat.le_trans⟩

theorem mem_dedupAdj {α : Type} [DecidableEq α] {l : List α} {x : α} :
    x ∈ dedupAdj l ↔ x ∈ l := by
  induction l with
  | nil => simp [dedupAdj]
  | cons a rest ih =>
    cases rest with
    | nil => simp [dedupAdj]
    | cons b t =>
      by_cases hab : a = b
      · subst hab
        rw [dedupAdj, if_pos rfl]
        rw [ih]
        simp
      · rw [dedupAdj, if_neg hab]
        simp only [List.mem_cons] at ih ⊢
        rw [ih]

theorem dedupAdj_pairwise {α : Type} [DecidableEq α] {r : α → α → Prop} {l : List α}
    (h : l.Pairwise r) : (dedupAdj l).Pairwise r := by
  induction l with
  | nil => exact List.Pairwise.nil
  | cons a rest ih =>
    cases rest with
    | nil => simp [dedupAdj]
    | cons b t =>
      rw [List.pairwise_cons] at h
      by_cases hab : a = b
      · rw [dedupAdj, if_pos hab]
        exact ih h.2
      · rw [dedupAdj, if_neg hab]
        rw [List.pairwise_cons]
        refine ⟨fun y hy => h.1 y (mem_dedupAdj.mp hy), ih h.2⟩

theorem dedupAdj_nodup {α : Type} [DecidableEq α] {r : α → α → Prop}
    (hr : ∀ a b, r a b → r b a → a = b) :
    ∀ {l : List α}, l.Pairwise r → (dedupAdj l).Nodup := by
  intro l
  induction l with
  | nil => intro _; simp [dedupAdj]
  | cons a rest ih =>
    intro h
    rw [List.pairwise_cons] at h
    cases rest with
    | nil => simp [dedupAdj]
    | cons b t =>
      by_cases hab : a = b
      · rw [dedupAdj, if_pos hab]
        exact ih h.2
      · rw [dedupAdj, if_neg hab]
        rw [List.nodup_cons]
        refine ⟨fun hmem => ?_, ih h.2⟩
        have hmem' : a ∈ b :: t := mem_dedupAdj.mp hmem
        rw [List.pairwise_cons] at h
        rcases List.mem_cons.mp hmem' with rfl | hmem''
        · exact hab rfl
        · have hrb : r b a := by
            have := (h.2).1
            exact this a hmem''
          have hra : r a b := h.1 b (by simp)
          exact hab (hr a b hra hrb)

theorem sortDedup_mem {α : Type} [DecidableEq α] {r : α → α → Prop} [DecidableRel r]
    {l : List α} {x : α} : x ∈ dedupAdj (List.insertionSort r l) ↔ x ∈ l := by
  rw [mem_dedupAdj]
  exact (List.perm_insertionSort r l).mem_iff

theorem sortDedup_nodup {α : Type} [DecidableEq α] {r : α → α → Prop} [DecidableRel r]
    [IsTotal α r] [IsTrans α r] (hr : ∀ a b, r a b → r b a → a = b) (l : List α) :
    (dedupAdj (List.insertionSort r l)).Nodup :=
  dedupAdj_nodup hr (List.sorted_insertionSort r l)

/-! ## Scan kernel: stack lemmas, soundness and completeness invariants -/

theorem entryLe_cells {a b : Entry} (h : entryLe a b) : idxLeB a.1 b.1 = true := by
  unfold entryLe at h
  rcases h with h | ⟨h, _⟩
  · exact idxLeB_iff.mpr (Or.inl h)
  · exact h ▸ idxLeB_refl _

theorem scanGo_nil (f : Nat → Nat → Bool) (stack : List Entry) (acc : List (Nat × Nat)) :
    scanGo f stack [] acc = (stack, acc) := rfl

theorem scanGo_cons (f : Nat → Nat → Bool) (stack : List Entry) (e : Entry)
    (rest : List Entry) (acc : List (Nat × Nat)) :
    scanGo f stack (e :: rest) acc =
      if (popStack e.1 stack).any (fun s => s.2 == e.2) then
        scanGo f (popStack e.1 stack) rest acc
      else
        scanGo f (e :: popStack e.1 stack) rest
          (acc ++ emitsFor f e.2 (popStack e.1 stack)) := rfl

theorem scanGo_acc (f : Nat → Nat → Bool) :
    ∀ (todo : List Entry) (stack : List Entry) (acc : List (Nat × Nat)),
      scanGo f stack todo acc =
        ((scanGo f stack todo []).1, acc ++ (scanGo f stack todo []).2) := by
  intro todo
  induction todo with
  | nil => intro stack acc; simp [scanGo_nil]
  | cons e rest ih =>
    intro stack acc
    rw [scanGo_cons, scanGo_cons]
    by_cases h : (popStack e.1 stack).any (fun s => s.2 == e.2)
    · rw [if_pos h, if_pos h, ih _ acc]
    · rw [if_neg h, if_neg h, ih _ (acc ++ emitsFor f e.2 (popStack e.1 stack)),
        ih _ ([] ++ emitsFor f e.2 (popStack e.1 stack))]
      simp

theorem popStack_sublist (c : Idx) (st : List Entry) : (popStack c st).Sublist st :=
  List.dropWhile_sublist _

theorem mem_popStack {c : Idx} {st : List Entry} {s : Entry} (hm : s ∈ st)
    (hov : overlapsB c s.1 = true) : s ∈ popStack c st := by
  unfold popStack
  induction st with
  | nil => simp at hm
  | cons a t ih =>
    rw [List.dropWhile_cons]
    rcases List.mem_cons.mp hm with rfl | hm'
    · rw [hov]
      simp
    · by_cases ha : overlapsB c a.1 = true
      · rw [ha]
        simp only [Bool.not_true, if_neg Bool.false_ne_true]
        exact List.mem_cons_of_mem a hm'
      · rw [Bool.not_eq_true] at ha
        rw [ha]
        simp only [Bool.not_false, if_pos rfl]
        exact ih hm'

theorem popStack_head_ov {c : Idx} {st : List Entry} {s0 : Entry} {rest : List Entry}
    (h : popStack c st = s0 :: rest) : overlapsB c s0.1 = true := by
  unfold popStack at h
  induction st with
  | nil => simp at h
  | cons a t ih =>
    rw [List.dropWhile_cons] at h
    by_cases ha : overlapsB c a.1 = true
    · rw [ha] at h
      simp only [Bool.not_true, if_neg Bool.false_ne_true] at h
      exact (List.cons.injEq _ _ _ _ ▸ h).1 ▸ ha
    · rw [Bool.not_eq_true] at ha
      rw [ha] at h
      simp only [Bool.not_false, if_pos rfl] at h
      exact ih h

/-- After the pop loop, every remaining stack entry's cell is an ancestor of
the current cell (uses the chain shape of the stack and that stack cells
precede the current cell in the total order). -/
theorem popStack_all_anc {e : Entry} {st : List Entry}
    (hpw : st.Pairwise (fun a b => isAncB b.1 a.1 = true))
    (hle : ∀ s ∈ st, idxLeB s.1 e.1 = true) :
    ∀ s ∈ popStack e.1 st, isAncB s.1 e.1 = true := by
  intro s hs
  match hhead : popStack e.1 st with
  | [] => rw [hhead] at hs; simp at hs
  | s0 :: rest =>
    rw [hhead] at hs
    have hov : overlapsB e.1 s0.1 = true := popStack_head_ov hhead
    have hs0 : s0 ∈ st := (popStack_sublist e.1 st).mem (hhead ▸ List.mem_cons_self s0 rest)
    have hanc0 : isAncB s0.1 e.1 = true := by
      rw [overlapsB_symm] at hov
      exact isAncB_of_overlaps_le hov (hle s0 hs0)
    rcases List.mem_cons.mp hs with rfl | hs'
    · exact hanc0
    · have hpw' : (s0 :: rest).Pairwise (fun a b => isAncB b.1 a.1 = true) :=
        hpw.sublist (hhead ▸ popStack_sublist e.1 st)
      have : isAncB s.1 s0.1 = true := (List.pairwise_cons.mp hpw').1 s hs'
      exact isAncB_trans this hanc0

theorem emitsFor_mem {f : Nat → Nat → Bool} {i : Nat} {st : List Entry}
    {p : Nat × Nat} (hp : p ∈ emitsFor f i st) :
    p.1 = i ∧ p.1 ≠ p.2 ∧ ∃ s ∈ st, s.2 = p.2 := by
  unfold emitsFor at hp
  rw [List.mem_filterMap] at hp
  obtain ⟨s, hs, heq⟩ := hp
  by_cases hc : (i != s.2 && f i s.2) = true
  · rw [if_pos hc] at heq
    obtain rfl := Option.some_injective _ heq
    simp only [bne_iff_ne, Bool.and_eq_true, ne_eq] at hc
    exact ⟨rfl, hc.1, s, List.mem_reverse.mp hs, rfl⟩
  · rw [if_neg hc] at heq
    exact absurd heq (by simp)

theorem entryLe_refl (a : Entry) : entryLe a a := Or.inr ⟨rfl, Nat.le_refl _⟩

theorem mem_of_getLast?_mem {α : Type} {l : List α} {x : α} (h : x ∈ l.getLast?) : x ∈ l := by
  obtain ⟨hne, rfl⟩ := List.mem_getLast?_eq_getLast h
  exact List.getLast_mem hne

theorem pairwise_le_getLast {l : List Entry} (h : l.Pairwise entryLe) :
    ∀ a ∈ l, ∀ dl ∈ l.getLast?, entryLe a dl := by
  induction l with
  | nil => intro a ha; simp at ha
  | cons x t ih =>
    intro a ha dl hdl
    rw [List.pairwise_cons] at h
    cases t with
    | nil =>
      simp only [List.getLast?_singleton, Option.mem_def, Option.some.injEq] at hdl
      rcases List.mem_singleton.mp ha with rfl
      exact hdl ▸ entryLe_refl a
    | cons y u =>
      have hdl' : dl ∈ (y :: u).getLast? := by
        rw [List.getLast?_cons_cons] at hdl
        exact hdl
      rcases List.mem_cons.mp ha with rfl | ha'
      · have hy : dl ∈ y :: u := mem_of_getLast?_mem hdl'
        exact h.1 dl hy
      · exact ih h.2 a ha' dl hdl'

theorem pairwise_mem_rel {α : Type} {R : α → α → Prop} {l : List α}
    (h : l.Pairwise R) {x y : α} (hx : x ∈ l) (hy : y ∈ l) :
    x = y ∨ R x y ∨ R y x := by
  induction l with
  | nil => simp at hx
  | cons a t ih =>
    rw [List.pairwise_cons] at h
    rcases List.mem_cons.mp hx with rfl | hx'
    · rcases List.mem_cons.mp hy with rfl | hy'
      · exact Or.inl rfl
      · exact Or.inr (Or.inl (h.1 y hy'))
    · rcases List.mem_cons.mp hy with rfl | hy'
      · exact Or.inr (Or.inr (h.1 x hx'))
      · exact ih h.2 hx' hy'

theorem mem_emitsFor {f : Nat → Nat → Bool} {i : Nat} {st : List Entry} {s : Entry}
    (hs : s ∈ st) (hne : i ≠ s.2) (hf : f i s.2 = true) : (i, s.2) ∈ emitsFor f i st := by
  unfold emitsFor
  rw [List.mem_filterMap]
  refine ⟨s, List.mem_reverse.mpr hs, ?_⟩
  rw [if_pos (by simp [hne, hf])]

/-- Master invariant of the ancestor-stack sweep with the always-true filter.
`done` are the processed entries, `stack`/`acc` the current state; the
conclusion gives completeness (every ancestor-related pair of distinct ids is
emitted in some orientation) and soundness (every emitted pair has distinct
ids related by an ancestor/descendant cell pair) over `done ++ todo`. -/
theorem scanGo_master :
    ∀ (todo done stack : List Entry) (acc : List (Nat × Nat)),
      List.Pairwise entryLe (done ++ todo) →
      (∀ s ∈ stack, s ∈ done) →
      stack.Pairwise (fun a b => isAncB b.1 a.1 = true) →
      (stack.map Prod.snd).Nodup →
      (∀ s ∈ stack, ∀ dl ∈ done.getLast?, isAncB s.1 dl.1 = true) →
      (∀ a ∈ done, ∀ dl ∈ done.getLast?, isAncB a.1 dl.1 = true →
        ∃ c, (c, a.2) ∈ stack ∧ isAncB c a.1 = true) →
      (∀ a ∈ done, ∀ b ∈ done, isAncB a.1 b.1 = true → a.2 ≠ b.2 →
        (a.2, b.2) ∈ acc ∨ (b.2, a.2) ∈ acc) →
      (∀ p ∈ acc, p.1 ≠ p.2 ∧ ∃ ca cb, (ca, p.1) ∈ done ∧ (cb, p.2) ∈ done ∧
        isAncB cb ca = true) →
      (∀ a ∈ done ++ todo, ∀ b ∈ done ++ todo, isAncB a.1 b.1 = true → a.2 ≠ b.2 →
        (a.2, b.2) ∈ (scanGo (fun _ _ => true) stack todo acc).2 ∨
        (b.2, a.2) ∈ (scanGo (fun _ _ => true) stack todo acc).2) ∧
      (∀ p ∈ (scanGo (fun _ _ => true) stack todo acc).2, p.1 ≠ p.2 ∧ ∃ ca cb,
        (ca, p.1) ∈ done ++ todo ∧ (cb, p.2) ∈ done ++ todo ∧ isAncB cb ca = true) := by
  intro todo
  induction todo with
  | nil =>
    intro done stack acc hsorted hsub hpw hids hanc hpers hpairs hsound
    rw [scanGo_nil]
    simp only [List.append_nil]
    exact ⟨hpairs, hsound⟩
  | cons e rest ih =>
    intro done stack acc hsorted hsub hpw hids hanc hpers hpairs hsound
    -- facts shared by both branches
    have hsorted' : List.Pairwise entryLe ((done ++ [e]) ++ rest) := by
      rw [List.append_assoc]
      exact hsorted
    have hdone_e : ∀ a ∈ done, entryLe a e := by
      intro a ha
      exact (List.pairwise_append.mp hsorted).2.2 a ha e (by simp)
    have hle_stack : ∀ s ∈ stack, idxLeB s.1 e.1 = true := by
      intro s hs
      exact entryLe_cells (hdone_e s (hsub s hs))
    have hancP : ∀ s ∈ popStack e.1 stack, isAncB s.1 e.1 = true :=
      popStack_all_anc hpw hle_stack
    have hsubP : ∀ s ∈ popStack e.1 stack, s ∈ done := by
      intro s hs
      exact hsub s ((popStack_sublist e.1 stack).mem hs)
    have hpwP : (popStack e.1 stack).Pairwise (fun a b => isAncB b.1 a.1 = true) :=
      hpw.sublist (popStack_sublist e.1 stack)
    have hidsP : ((popStack e.1 stack).map Prod.snd).Nodup :=
      hids.sublist ((popStack_sublist e.1 stack).map Prod.snd)
    have hlast' : ((done ++ [e]).getLast?) = some e := List.getLast?_concat _
    -- a processed entry whose cell is an ancestor of the current cell has a
    -- same-id representative surviving on the popped stack
    have hrep : ∀ a ∈ done, isAncB a.1 e.1 = true →
        ∃ c, (c, a.2) ∈ popStack e.1 stack ∧ isAncB c a.1 = true := by
      intro a ha hae
      cases hdl : done.getLast? with
      | none =>
        rw [List.getLast?_eq_none_iff] at hdl
        rw [hdl] at ha
        simp at ha
      | some dl =>
        have hdl_mem : dl ∈ done := mem_of_getLast?_mem (by rw [hdl]; rfl)
        have hadl : entryLe a dl := pairwise_le_getLast (List.pairwise_append.mp hsorted).1 a ha dl hdl
        have hdle : entryLe dl e := hdone_e dl hdl_mem
        have hadl_anc : isAncB a.1 dl.1 = true :=
          isAncB_of_between hae (entryLe_cells hadl) (entryLe_cells hdle)
        obtain ⟨c, hc_mem, hc_anc⟩ := hpers a ha dl (by rw [hdl]; rfl) hadl_anc
        refine ⟨c, ?_, hc_anc⟩
        have hce : isAncB c e.1 = true := isAncB_trans hc_anc hae
        exact mem_popStack hc_mem (by rw [overlapsB_symm]; simp [overlapsB, hce])
    -- pairs between a processed entry and the current entry are settled in both
    -- branches below; first the "cells equal" normalisation for b ∈ done
    have hcell_eq : ∀ b ∈ done, isAncB e.1 b.1 = true → b.1 = e.1 := by
      intro b hb hanc_eb
      exact idxLeB_antisymm (entryLe_cells (hdone_e b hb)) (idxLeB_of_anc hanc_eb)
    rw [scanGo_cons]
    by_cases hskip : ((popStack e.1 stack).any (fun s => s.2 == e.2)) = true
    · -- skip branch: e's id is already on the stack
      rw [if_pos hskip]
      obtain ⟨w, hw_mem, hw_id⟩ := List.any_eq_true.mp hskip
      rw [beq_iff_eq] at hw_id
      -- settle the new pairs (a ∈ done vs e) out of the accumulated ones
      have hnew : ∀ a ∈ done, isAncB a.1 e.1 = true → a.2 ≠ e.2 →
          (a.2, e.2) ∈ acc ∨ (e.2, a.2) ∈ acc := by
        intro a ha hae hne
        obtain ⟨c, hc_mem, hc_anc⟩ := hrep a ha hae
        have hw_done : w ∈ done := hsubP w hw_mem
        have hc_done : (c, a.2) ∈ done := hsubP _ hc_mem
        rcases pairwise_mem_rel hpwP hc_mem hw_mem with heq | hcw | hwc
        · exact absurd (congrArg Prod.snd heq) (by simpa [hw_id] using hne)
        · -- w is an ancestor of (c, a.2)
          have := hpairs w hw_done (c, a.2) hc_done hcw
            (by simpa [hw_id] using fun h => hne h.symm)
          rcases this with h | h
          · exact Or.inr (by simpa [hw_id] using h)
          · exact Or.inl (by simpa [hw_id] using h)
        · -- (c, a.2) is an ancestor of w
          have := hpairs (c, a.2) hc_done w hw_done hwc
            (by simpa [hw_id] using hne)
          rcases this with h | h
          · exact Or.inl (by simpa [hw_id] using h)
          · exact Or.inr (by simpa [hw_id] using h)
      rw [(by simp : done ++ e :: rest = (done ++ [e]) ++ rest)]
      refine ih (done ++ [e]) (popStack e.1 stack) acc hsorted' ?_ hpwP hidsP ?_ ?_ ?_ ?_
      · intro s hs
        exact List.mem_append_left _ (hsubP s hs)
      · intro s hs dl hdl
        rw [hlast'] at hdl
        obtain rfl := Option.some_injective _ (Option.mem_def.mp hdl).symm
        exact hancP s hs
      · intro a ha dl hdl hadl
        rw [hlast'] at hdl
        obtain rfl := Option.some_injective _ (Option.mem_def.mp hdl).symm
        rcases List.mem_append.mp ha with ha' | ha'
        · exact hrep a ha' hadl
        · obtain rfl := List.mem_singleton.mp ha'
          exact ⟨w.1, by rw [← hw_id]; exact hw_mem, hancP w hw_mem⟩
      · intro a ha b hb hab hne
        rcases List.mem_append.mp ha with ha' | ha' <;>
          rcases List.mem_append.mp hb with hb' | hb'
        · exact hpairs a ha' b hb' hab hne
        · obtain rfl := List.mem_singleton.mp hb'
          exact hnew a ha' hab hne
        · obtain rfl := List.mem_singleton.mp ha'
          have hcb : b.1 = a.1 := hcell_eq b hb' hab
          have := hnew b hb' (by rw [hcb]; exact isAncB_refl _) (Ne.symm hne)
          tauto
        · obtain rfl := List.mem_singleton.mp ha'
          obtain rfl := List.mem_singleton.mp hb'
          exact absurd rfl hne
      · intro p hp
        obtain ⟨hne, ca, cb, h1, h2, h3⟩ := hsound p hp
        exact ⟨hne, ca, cb, List.mem_append_left _ h1, List.mem_append_left _ h2, h3⟩
    · -- push branch: emit pairs against the whole popped stack, then push e
      rw [if_neg hskip]
      have hnotin : e.2 ∉ (popStack e.1 stack).map Prod.snd := by
        intro hmem
        obtain ⟨s, hs, hs2⟩ := List.mem_map.mp hmem
        exact hskip (List.any_eq_true.mpr ⟨s, hs, by rw [beq_iff_eq]; exact hs2⟩)
      have hemit : ∀ a ∈ done, isAncB a.1 e.1 = true → a.2 ≠ e.2 →
          (e.2, a.2) ∈ emitsFor (fun _ _ => true) e.2 (popStack e.1 stack) := by
        intro a ha hae hne
        obtain ⟨c, hc_mem, _⟩ := hrep a ha hae
        exact mem_emitsFor (s := (c, a.2)) hc_mem (fun h => hne h.symm) rfl
      rw [(by simp : done ++ e :: rest = (done ++ [e]) ++ rest)]
      refine ih (done ++ [e]) (e :: popStack e.1 stack)
        (acc ++ emitsFor (fun _ _ => true) e.2 (popStack e.1 stack)) hsorted' ?_ ?_ ?_ ?_ ?_ ?_ ?_
      · intro s hs
        rcases List.mem_cons.mp hs with rfl | hs'
        · exact List.mem_append_right _ (by simp)
        · exact List.mem_append_left _ (hsubP s hs')
      · rw [List.pairwise_cons]
        exact ⟨fun s hs => hancP s hs, hpwP⟩
      · rw [List.map_cons, List.nodup_cons]
        exact ⟨hnotin, hidsP⟩
      · intro s hs dl hdl
        rw [hlast'] at hdl
        obtain rfl := Option.some_injective _ (Option.mem_def.mp hdl).symm
        rcases List.mem_cons.mp hs with rfl | hs'
        · exact isAncB_refl _
        · exact hancP s hs'
      · intro a ha dl hdl hadl
        rw [hlast'] at hdl
        obtain rfl := Option.some_injective _ (Option.mem_def.mp hdl).symm
        rcases List.mem_append.mp ha with ha' | ha'
        · obtain ⟨c, hc_mem, hc_anc⟩ := hrep a ha' hadl
          exact ⟨c, List.mem_cons_of_mem _ hc_mem, hc_anc⟩
        · obtain rfl := List.mem_singleton.mp ha'
          exact ⟨a.1, by simp, isAncB_refl _⟩
      · intro a ha b hb hab hne
        rcases List.mem_append.mp ha with ha' | ha' <;>
          rcases List.mem_append.mp hb with hb' | hb'
        · rcases hpairs a ha' b hb' hab hne with h | h
          · exact Or.inl (List.mem_append_left _ h)
          · exact Or.inr (List.mem_append_left _ h)
        · obtain rfl := List.mem_singleton.mp hb'
          exact Or.inr (List.mem_append_right _ (hemit a ha' hab hne))
        · obtain rfl := List.mem_singleton.mp ha'
          have hcb : b.1 = a.1 := hcell_eq b hb' hab
          exact Or.inl (List.mem_append_right _
            (hemit b hb' (by rw [hcb]; exact isAncB_refl _) (Ne.symm hne)))
        · obtain rfl := List.mem_singleton.mp ha'
          obtain rfl := List.mem_singleton.mp hb'
          exact absurd rfl hne
      · intro p hp
        rcases List.mem_append.mp hp with hp' | hp'
        · obtain ⟨hne, ca, cb, h1, h2, h3⟩ := hsound p hp'
          exact ⟨hne, ca, cb, List.mem_append_left _ h1, List.mem_append_left _ h2, h3⟩
        · obtain ⟨hp1, hne, s, hs_mem, hs2⟩ := emitsFor_mem hp'
          refine ⟨hne, e.1, s.1, ?_, ?_, hancP s hs_mem⟩
          · rw [hp1]
            exact List.mem_append_right _ (by simp)
          · rw [← hs2]
            exact List.mem_append_left _ (hsubP s hs_mem)

/-- Soundness of the sweep for an arbitrary filter: every emitted pair has
distinct components and both ids come from stack or input entries. -/
theorem scanGo_ids (f : Nat → Nat → Bool) :
    ∀ (todo stack : List Entry) (acc : List (Nat × Nat)) (U : List Entry),
      (∀ s ∈ stack, s ∈ U) → (∀ e ∈ todo, e ∈ U) →
      ∀ p ∈ (scanGo f stack todo acc).2, p ∈ acc ∨
        (p.1 ≠ p.2 ∧ (∃ s ∈ U, s.2 = p.1) ∧ (∃ s ∈ U, s.2 = p.2)) := by
  intro todo
  induction todo with
  | nil =>
    intro stack acc U _ _ p hp
    rw [scanGo_nil] at hp
    exact Or.inl hp
  | cons e rest ih =>
    intro stack acc U hstack htodo p hp
    rw [scanGo_cons] at hp
    have hstP : ∀ s ∈ popStack e.1 stack, s ∈ U :=
      fun s hs => hstack s ((popStack_sublist e.1 stack).mem hs)
    have hrest : ∀ x ∈ rest, x ∈ U := fun x hx => htodo x (List.mem_cons_of_mem e hx)
    by_cases hskip : ((popStack e.1 stack).any (fun s => s.2 == e.2)) = true
    · rw [if_pos hskip] at hp
      exact ih _ acc U hstP hrest p hp
    · rw [if_neg hskip] at hp
      have := ih (e :: popStack e.1 stack) _ U
        (fun s hs => by
          rcases List.mem_cons.mp hs with rfl | hs'
          · exact htodo s (by simp)
          · exact hstP s hs') hrest p hp
      rcases this with h | h
      · rcases List.mem_append.mp h with h' | h'
        · exact Or.inl h'
        · obtain ⟨hp1, hne, s, hs_mem, hs2⟩ := emitsFor_mem h'
          refine Or.inr ⟨hne, ⟨e, htodo e (by simp), hp1.symm⟩, ⟨s, hstP s hs_mem, hs2⟩⟩
      · exact Or.inr h

/-- Emissions of the fork/join parallel scan have distinct components and ids
drawn from the input slice. -/
theorem par_scan_impl_mem (md : Nat) (f : Nat → Nat → Bool) :
    ∀ (threads : Nat) (t : List Entry), ∀ p ∈ par_scan_impl md f threads t,
      p.1 ≠ p.2 ∧ (∃ s ∈ t, s.2 = p.1) ∧ (∃ s ∈ t, s.2 = p.2) := by
  intro threads
  induction threads using Nat.strong_induction_on with
  | _ threads ih =>
    intro t p hp
    rw [par_scan_impl] at hp
    by_cases hc : threads ≤ 1 ∨ t.length ≤ 64
    · rw [if_pos hc] at hp
      have := scanGo_ids f t [] [] t (by simp) (fun e he => he) p hp
      simpa using this
    · rw [if_neg hc] at hp
      have hlt : threads >>> 1 < threads := by
        rw [Nat.shiftRight_eq_div_pow, pow_one]
        omega
      rcases List.mem_append.mp hp with h | h
      · obtain ⟨hne, ⟨s1, hs1, h1⟩, ⟨s2, hs2, h2⟩⟩ := ih _ hlt _ p h
        exact ⟨hne, ⟨s1, List.mem_of_mem_take hs1, h1⟩, ⟨s2, List.mem_of_mem_take hs2, h2⟩⟩
      · obtain ⟨hne, ⟨s1, hs1, h1⟩, ⟨s2, hs2, h2⟩⟩ := ih _ hlt _ p h
        exact ⟨hne, ⟨s1, List.mem_of_mem_drop hs1, h1⟩, ⟨s2, List.mem_of_mem_drop hs2, h2⟩⟩

theorem sort_of_sorted {L : Layer} (h : L.sorted = true) : L.sort = L := by
  unfold Layer.sort
  rw [if_pos h]

/-- C4: for every layer and every filter (and worker count), no pair of the
form `(id, id)` is ever emitted by `scan`, `scan_filtered`, `par_scan` or
`par_scan_filtered`: an entry whose id already occurs on the ancestor stack is
skipped, and equal-id stack entries are never paired with the current entry. -/
theorem C4_no_self_collisions (L : Layer) (f : Nat → Nat → Bool) (threads : Nat) (x : Nat) :
    (x, x) ∉ (L.scan_filtered f).2 ∧ (x, x) ∉ (L.par_scan_filtered threads f).2 ∧
    (x, x) ∉ L.scan.2 ∧ (x, x) ∉ (L.par_scan threads).2 := by
  have h1 : ∀ g : Nat → Nat → Bool, (x, x) ∉ (L.scan_filtered g).2 := by
    intro g hmem
    unfold Layer.scan_filtered at hmem
    simp only at hmem
    have := sortDedup_mem.mp hmem
    have := scanGo_ids g L.sort.tree [] [] L.sort.tree (by simp) (fun e he => he) _ this
    simp at this
  have h2 : ∀ g : Nat → Nat → Bool, (x, x) ∉ (L.par_scan_filtered threads g).2 := by
    intro g hmem
    unfold Layer.par_scan_filtered at hmem
    simp only at hmem
    have := sortDedup_mem.mp hmem
    have := par_scan_impl_mem L.sort.min_depth g threads L.sort.tree _ this
    simp at this
  exact ⟨h1 f, h2 f, h1 _, h2 _⟩

/-- C1 counterexample: in the layer below, object 0 owns cells `[0]` and
`[1,0]`, object 1 owns cells `[0,0]` and `[1]`; the ancestor/descendant
relation holds in both orientations (`[0] ≺ [0,0]` and `[1] ≺ [1,0]`), and the
scan result lists the pair twice — once per orientation — falsifying "the pair
appears exactly once". -/
theorem C1_counterexample :
    ((Layer.mk 0 [([0], 0), ([0, 0], 1), ([1], 1), ([1, 0], 0)] true [] [] [] []).scan_filtered
        (fun _ _ => true)).2 = [(0, 1), (1, 0)] ∧
    (0, 1) ∈ ((Layer.mk 0 [([0], 0), ([0, 0], 1), ([1], 1), ([1, 0], 0)] true [] [] [] []).scan_filtered
        (fun _ _ => true)).2 ∧
    (1, 0) ∈ ((Layer.mk 0 [([0], 0), ([0, 0], 1), ([1], 1), ([1, 0], 0)] true [] [] [] []).scan_filtered
        (fun _ _ => true)).2 := by
  refine ⟨by decide, ?_, ?_⟩ <;> decide

/-- C1 (amended): for every layer whose tree has been sorted, every pair of
distinct ids owning entries with ancestor/descendant-related cells appears in
the result of `scan_filtered` with the always-true filter in at least one
orientation; each ordered pair appears at most once (the result has no
duplicates); and no pair of ids without such a cell relation appears. -/
theorem C1_scan_completeness_soundness (L : Layer) (hs : L.sorted = true)
    (hpw : List.Pairwise entryLe L.tree) :
    (∀ e1 ∈ L.tree, ∀ e2 ∈ L.tree, overlapsB e1.1 e2.1 = true → e1.2 ≠ e2.2 →
      (e1.2, e2.2) ∈ (L.scan_filtered (fun _ _ => true)).2 ∨
      (e2.2, e1.2) ∈ (L.scan_filtered (fun _ _ => true)).2) ∧
    (∀ p ∈ (L.scan_filtered (fun _ _ => true)).2, p.1 ≠ p.2 ∧ ∃ ca cb,
      (ca, p.1) ∈ L.tree ∧ (cb, p.2) ∈ L.tree ∧ overlapsB ca cb = true) ∧
    (L.scan_filtered (fun _ _ => true)).2.Nodup := by
  have hsort : L.sort = L := sort_of_sorted hs
  have hmaster := scanGo_master L.tree [] [] [] (by simpa using hpw) (by simp) (by simp)
    (by simp) (by simp) (by simp) (by simp) (by simp)
  simp only [List.nil_append] at hmaster
  have hmem : ∀ p : Nat × Nat, p ∈ (L.scan_filtered (fun _ _ => true)).2 ↔
      p ∈ (scanGo (fun _ _ => true) [] L.tree []).2 := by
    intro p
    unfold Layer.scan_filtered
    simp only [hsort]
    exact sortDedup_mem
  refine ⟨?_, ?_, ?_⟩
  · intro e1 h1 e2 h2 hov hne
    simp only [overlapsB, Bool.or_eq_true] at hov
    rcases hov with hanc | hanc
    · rcases hmaster.1 e1 h1 e2 h2 hanc hne with h | h
      · exact Or.inl ((hmem _).mpr h)
      · exact Or.inr ((hmem _).mpr h)
    · rcases hmaster.1 e2 h2 e1 h1 hanc (Ne.symm hne) with h | h
      · exact Or.inr ((hmem _).mpr h)
      · exact Or.inl ((hmem _).mpr h)
  · intro p hp
    obtain ⟨hne, ca, cb, hca, hcb, hanc⟩ := hmaster.2 p ((hmem p).mp hp)
    exact ⟨hne, ca, cb, hca, hcb, by simp [overlapsB, hanc]⟩
  · unfold Layer.scan_filtered
    simp only [hsort]
    exact sortDedup_nodup (fun a b => pairLe_antisymm) _

/-- C1 witness: the amended theorem applied to the counterexample layer. -/
theorem C1_witness :
    ((Layer.mk 0 [([0], 0), ([0, 0], 1), ([1], 1), ([1, 0], 0)] true [] [] [] []).sorted = true ∧
      List.Pairwise entryLe
        (Layer.mk 0 [([0], 0), ([0, 0], 1), ([1], 1), ([1, 0], 0)] true [] [] [] []).tree) ∧
    ((∀ e1 ∈ (Layer.mk 0 [([0], 0), ([0, 0], 1), ([1], 1), ([1, 0], 0)] true [] [] [] []).tree,
      ∀ e2 ∈ (Layer.mk 0 [([0], 0), ([0, 0], 1), ([1], 1), ([1, 0], 0)] true [] [] [] []).tree,
      overlapsB e1.1 e2.1 = true → e1.2 ≠ e2.2 →
      (e1.2, e2.2) ∈ ((Layer.mk 0 [([0], 0), ([0, 0], 1), ([1], 1), ([1, 0], 0)] true [] [] [] []).scan_filtered
        (fun _ _ => true)).2 ∨
      (e2.2, e1.2) ∈ ((Layer.mk 0 [([0], 0), ([0, 0], 1), ([1], 1), ([1, 0], 0)] true [] [] [] []).scan_filtered
        (fun _ _ => true)).2) ∧
    (∀ p ∈ ((Layer.mk 0 [([0], 0), ([0, 0], 1), ([1], 1), ([1, 0], 0)] true [] [] [] []).scan_filtered
        (fun _ _ => true)).2, p.1 ≠ p.2 ∧ ∃ ca cb,
      (ca, p.1) ∈ (Layer.mk 0 [([0], 0), ([0, 0], 1), ([1], 1), ([1, 0], 0)] true [] [] [] []).tree ∧
      (cb, p.2) ∈ (Layer.mk 0 [([0], 0), ([0, 0], 1), ([1], 1), ([1, 0], 0)] true [] [] [] []).tree ∧
      overlapsB ca cb = true) ∧
    ((Layer.mk 0 [([0], 0), ([0, 0], 1), ([1], 1), ([1, 0], 0)] true [] [] [] []).scan_filtered
        (fun _ _ => true)).2.Nodup) :=
  ⟨⟨rfl, by decide⟩,
    C1_scan_completeness_soundness
      (Layer.mk 0 [([0], 0), ([0, 0], 1), ([1], 1), ([1, 0], 0)] true [] [] [] []) rfl (by decide)⟩

/-! ## Parallel scan: safe split and equivalence with the sequential scan -/

theorem findSplit_spec (md : Nat) (t : List Entry) :
    ∀ (k i₀ : Nat), t.length - i₀ ≤ k →
      i₀ ≤ findSplit md t i₀ ∧
      (findSplit md t i₀ < t.length →
        sameCellB (t.getD (findSplit md t i₀ - 1) ([], 0)).1
          (t.getD (findSplit md t i₀) ([], 0)).1 md = false) := by
  intro k
  induction k with
  | zero =>
    intro i₀ hk
    rw [findSplit]
    have h : ¬ i₀ < t.length := by omega
    rw [dif_neg h]
    exact ⟨le_refl _, fun hh => absurd hh h⟩
  | succ k ih =>
    intro i₀ hk
    rw [findSplit]
    by_cases h : i₀ < t.length
    · rw [dif_pos h]
      by_cases hs : sameCellB (t.getD (i₀ - 1) ([], 0)).1 (t.getD i₀ ([], 0)).1 md = true
      · rw [if_pos hs]
        have := ih (i₀ + 1) (by omega)
        exact ⟨by omega, this.2⟩
      · rw [if_neg hs]
        exact ⟨le_refl _, fun _ => by simpa using hs⟩
    · rw [dif_neg h]
      exact ⟨le_refl _, fun hh => absurd hh h⟩

theorem sameCellB_refl (a : Idx) (md : Nat) : sameCellB a a md = true := by
  simp [sameCellB]

/-- When the two neighbours at the split point do not share an ancestor at
depth `md`, and every entry is at depth ≥ `md`, no cell in the head half
overlaps any cell in the tail half. -/
theorem cross_no_overlap {t : List Entry} {md i : Nat}
    (hpw : List.Pairwise entryLe t) (hmd : ∀ e ∈ t, md ≤ e.1.length)
    (hi : i < t.length)
    (hb : sameCellB (t.getD (i - 1) ([], 0)).1 (t.getD i ([], 0)).1 md = false) :
    ∀ e1 ∈ t.take i, ∀ e2 ∈ t.drop i, overlapsB e1.1 e2.1 = false := by
  have hii : 1 ≤ i := by
    by_contra hlt
    have hi0 : i = 0 := by omega
    rw [hi0] at hb
    simp only [Nat.zero_sub, sameCellB_refl] at hb
    exact absurd hb (by simp)
  have hget : ∀ {p q : Nat} (hp : p < t.length) (hq : q < t.length), p ≤ q →
      entryLe t[p] t[q] := by
    intro p q hp hq hpq
    rcases Nat.lt_or_ge p q with h | h
    · exact List.pairwise_iff_getElem.mp hpw p q hp hq h
    · have : p = q := by omega
      subst this
      exact entryLe_refl _
  intro e1 h1 e2 h2
  by_contra hov
  rw [Bool.not_eq_false] at hov
  obtain ⟨j, hjl, hje⟩ := List.mem_iff_getElem.mp h1
  obtain ⟨k, hkl, hke⟩ := List.mem_iff_getElem.mp h2
  have hjlen : j < i := by
    have := hjl
    simp only [List.length_take] at this
    omega
  have hjt : j < t.length := by
    have := hjl
    simp only [List.length_take] at this
    omega
  have hkt : i + k < t.length := by
    have := hkl
    simp only [List.length_drop] at this
    omega
  have hje' : t[j] = e1 := by
    rw [← hje]
    exact (List.getElem_take t).symm
  have hke' : t[i + k] = e2 := by
    rw [← hke]
    exact (List.getElem_drop t).symm
  have him : i - 1 < t.length := by omega
  have hle1 : idxLeB e1.1 (t.get ⟨i - 1, him⟩).1 = true := by
    rw [← hje']
    exact entryLe_cells (hget hjt him (by omega))
  have hle2 : idxLeB (t.get ⟨i - 1, him⟩).1 (t.get ⟨i, hi⟩).1 = true :=
    entryLe_cells (hget him hi (by omega))
  have hle3 : idxLeB (t.get ⟨i, hi⟩).1 e2.1 = true := by
    rw [← hke']
    exact entryLe_cells (hget hi hkt (by omega))
  have hb' : sameCellB (t.get ⟨i - 1, him⟩).1 (t.get ⟨i, hi⟩).1 md = false := by
    rw [List.getD_eq_getElem t ([], 0) him, List.getD_eq_getElem t ([], 0) hi] at hb
    exact hb
  have hmain : ∀ (hanc : isAncB e1.1 e2.1 = true), False := by
    intro hanc
    have hA1 : isAncB e1.1 (t.get ⟨i - 1, him⟩).1 = true :=
      isAncB_of_between hanc hle1 (idxLeB_trans hle2 hle3)
    have hA2 : isAncB e1.1 (t.get ⟨i, hi⟩).1 = true :=
      isAncB_of_between hanc (idxLeB_trans hle1 hle2) hle3
    have hmd1 : md ≤ e1.1.length := hmd e1 (List.mem_of_mem_take h1)
    have htk1 := take_eq_of_anc hA1 hmd1
    have htk2 := take_eq_of_anc hA2 hmd1
    rw [sameCellB, htk1, htk2] at hb'
    simp at hb'
  simp only [overlapsB, Bool.or_eq_true] at hov
  rcases hov with hanc | hanc
  · exact hmain hanc
  · have hcell : e1.1 = e2.1 :=
      idxLeB_antisymm (idxLeB_trans hle1 (idxLeB_trans hle2 hle3)) (idxLeB_of_anc hanc)
    exact hmain (hcell ▸ isAncB_refl e1.1)

theorem scanGo_append (f : Nat → Nat → Bool) :
    ∀ (l1 l2 stack : List Entry) (acc : List (Nat × Nat)),
      scanGo f stack (l1 ++ l2) acc =
        scanGo f (scanGo f stack l1 acc).1 l2 (scanGo f stack l1 acc).2 := by
  intro l1
  induction l1 with
  | nil => intro l2 stack acc; rw [List.nil_append, scanGo_nil]
  | cons e rest ih =>
    intro l2 stack acc
    rw [List.cons_append, scanGo_cons, scanGo_cons]
    by_cases h : ((popStack e.1 stack).any (fun s => s.2 == e.2)) = true
    · rw [if_pos h, if_pos h, ih]
    · rw [if_neg h, if_neg h, ih]

theorem scanGo_stack_mem (f : Nat → Nat → Bool) :
    ∀ (todo stack : List Entry) (acc : List (Nat × Nat)) (s : Entry),
      s ∈ (scanGo f stack todo acc).1 → s ∈ stack ∨ s ∈ todo := by
  intro todo
  induction todo with
  | nil =>
    intro stack acc s hs
    rw [scanGo_nil] at hs
    exact Or.inl hs
  | cons e rest ih =>
    intro stack acc s hs
    rw [scanGo_cons] at hs
    by_cases h : ((popStack e.1 stack).any (fun s => s.2 == e.2)) = true
    · rw [if_pos h] at hs
      rcases ih _ _ s hs with h' | h'
      · exact Or.inl ((popStack_sublist e.1 stack).mem h')
      · exact Or.inr (List.mem_cons_of_mem e h')
    · rw [if_neg h] at hs
      rcases ih _ _ s hs with h' | h'
      · rcases List.mem_cons.mp h' with rfl | h''
        · exact Or.inr (by simp)
        · exact Or.inl ((popStack_sublist e.1 stack).mem h'')
      · exact Or.inr (List.mem_cons_of_mem e h')

theorem popStack_eq_nil {c : Idx} {S : List Entry}
    (h : ∀ s ∈ S, overlapsB c s.1 = false) : popStack c S = [] := by
  unfold popStack
  induction S with
  | nil => rfl
  | cons a u ih =>
    rw [List.dropWhile_cons]
    rw [h a (by simp)]
    simp only [Bool.not_false, if_pos rfl]
    exact ih (fun s hs => h s (List.mem_cons_of_mem a hs))

/-- Starting the sweep on entries none of whose cells overlap any stack cell
produces the same emissions as starting from the empty stack. -/
theorem scanGo_fresh (f : Nat → Nat → Bool) (l S : List Entry) (acc : List (Nat × Nat))
    (h : ∀ s ∈ S, ∀ x ∈ l, overlapsB x.1 s.1 = false) :
    (scanGo f S l acc).2 = (scanGo f [] l acc).2 := by
  cases l with
  | nil => rw [scanGo_nil, scanGo_nil]
  | cons e rest =>
    rw [scanGo_cons, scanGo_cons]
    have hpop : popStack e.1 S = [] :=
      popStack_eq_nil (fun s hs => h s hs e (by simp))
    have hpop2 : popStack e.1 ([] : List Entry) = [] := rfl
    rw [hpop, hpop2]

/-- Emissions of the sweep over a concatenation whose halves share no
overlapping cells decompose into the two halves' emissions. -/
theorem scan_split (f : Nat → Nat → Bool) {h tl : List Entry}
    (hcross : ∀ e1 ∈ h, ∀ e2 ∈ tl, overlapsB e2.1 e1.1 = false) :
    scan_impl f (h ++ tl) = scan_impl f h ++ scan_impl f tl := by
  unfold scan_impl
  rw [scanGo_append]
  have hS : ∀ s ∈ (scanGo f [] h []).1, s ∈ h := by
    intro s hs
    rcases scanGo_stack_mem f h [] [] s hs with h' | h'
    · simp at h'
    · exact h'
  rw [scanGo_fresh f tl _ _ (fun s hs x hx => hcross s (hS s hs) x hx)]
  rw [scanGo_acc f tl [] ((scanGo f [] h []).2)]

/-- With a sorted tree all of whose entries are at depth ≥ `min_depth`, the
fork/join parallel scan emits exactly the sequential scan's list. -/
theorem par_scan_impl_eq (md : Nat) (f : Nat → Nat → Bool) :
    ∀ (threads : Nat) (t : List Entry), List.Pairwise entryLe t →
      (∀ e ∈ t, md ≤ e.1.length) → par_scan_impl md f threads t = scan_impl f t := by
  intro threads
  induction threads using Nat.strong_induction_on with
  | _ threads ih =>
    intro t hpw hmd
    rw [par_scan_impl]
    by_cases hc : threads ≤ 1 ∨ t.length ≤ 64
    · rw [if_pos hc]
    · rw [if_neg hc]
      show par_scan_impl md f (threads >>> 1) (t.take (findSplit md t (t.length / 2))) ++
        par_scan_impl md f (threads >>> 1) (t.drop (findSplit md t (t.length / 2))) =
        scan_impl f t
      have hlt : threads >>> 1 < threads := by
        rw [Nat.shiftRight_eq_div_pow, pow_one]
        omega
      have hpw1 : List.Pairwise entryLe (t.take (findSplit md t (t.length / 2))) :=
        hpw.sublist (List.take_sublist _ _)
      have hpw2 : List.Pairwise entryLe (t.drop (findSplit md t (t.length / 2))) :=
        hpw.sublist (List.drop_sublist _ _)
      have hmd1 : ∀ e ∈ t.take (findSplit md t (t.length / 2)), md ≤ e.1.length :=
        fun e he => hmd e (List.mem_of_mem_take he)
      have hmd2 : ∀ e ∈ t.drop (findSplit md t (t.length / 2)), md ≤ e.1.length :=
        fun e he => hmd e (List.mem_of_mem_drop he)
      rw [ih _ hlt _ hpw1 hmd1, ih _ hlt _ hpw2 hmd2]
      by_cases hsplit : findSplit md t (t.length / 2) < t.length
      · have hspec := (findSplit_spec md t t.length (t.length / 2) (by omega)).2 hsplit
        have hcross := cross_no_overlap hpw hmd hsplit hspec
        rw [← scan_split f (fun e1 he1 e2 he2 => by
          rw [overlapsB_symm]
          exact hcross e1 he1 e2 he2)]
        rw [List.take_append_drop]
      · have h1 : t.take (findSplit md t (t.length / 2)) = t :=
          List.take_of_length_le (by omega)
        have h2 : t.drop (findSplit md t (t.length / 2)) = [] :=
          List.drop_eq_nil_of_le (by omega)
        rw [h1, h2]
        have : scan_impl f [] = [] := rfl
        rw [this, List.append_nil]

theorem sort_min_depth (L : Layer) : L.sort.min_depth = L.min_depth := by
  unfold Layer.sort
  by_cases h : L.sorted <;> simp [h]

theorem sort_tree_pairwise (L : Layer) (hinv : L.sorted = true → List.Pairwise entryLe L.tree) :
    List.Pairwise entryLe L.sort.tree := by
  unfold Layer.sort
  by_cases h : L.sorted
  · rw [if_pos h]
    exact hinv h
  · rw [if_neg h]
    exact List.sorted_insertionSort entryLe L.tree

theorem sort_tree_mem {L : Layer} {e : Entry} (h : e ∈ L.sort.tree) : e ∈ L.tree := by
  unfold Layer.sort at h
  by_cases hs : L.sorted
  · rw [if_pos hs] at h
    exact h
  · rw [if_neg hs] at h
    exact (List.perm_insertionSort entryLe L.tree).mem_iff.mp h

/-- C2: for every layer satisfying the documented invariants (a set sorted
flag means the entries are sorted; every entry is at depth ≥ `min_depth`),
every worker count and every pure filter, `par_scan_filtered` and
`scan_filtered` return identical layers and identical result sequences;
moreover, the safe-split choice of `par_scan_impl` guarantees that no two
cells on opposite sides of the chosen split point overlap, so every
overlapping pair lands entirely in one half at every split. -/
theorem C2_par_scan_filtered_eq_scan_filtered (L : Layer) (threads : Nat)
    (f : Nat → Nat → Bool)
    (hinv : L.sorted = true → List.Pairwise entryLe L.tree)
    (hmd : ∀ e ∈ L.tree, L.min_depth ≤ e.1.length) :
    L.par_scan_filtered threads f = L.scan_filtered f ∧
    (∀ e1 ∈ L.sort.tree.take (findSplit L.sort.min_depth L.sort.tree (L.sort.tree.length / 2)),
      ∀ e2 ∈ L.sort.tree.drop (findSplit L.sort.min_depth L.sort.tree (L.sort.tree.length / 2)),
      overlapsB e1.1 e2.1 = false) := by
  have hpw : List.Pairwise entryLe L.sort.tree := sort_tree_pairwise L hinv
  have hmd' : ∀ e ∈ L.sort.tree, L.sort.min_depth ≤ e.1.length := by
    intro e he
    rw [sort_min_depth]
    exact hmd e (sort_tree_mem he)
  constructor
  · unfold Layer.par_scan_filtered Layer.scan_filtered
    simp only []
    rw [par_scan_impl_eq L.sort.min_depth f threads L.sort.tree hpw hmd']
  · by_cases hsplit :
      findSplit L.sort.min_depth L.sort.tree (L.sort.tree.length / 2) < L.sort.tree.length
    · exact cross_no_overlap hpw hmd' hsplit
        ((findSplit_spec L.sort.min_depth L.sort.tree L.sort.tree.length
          (L.sort.tree.length / 2) (by omega)).2 hsplit)
    · intro e1 _ e2 he2
      rw [List.drop_eq_nil_of_le (by omega)] at he2
      simp at he2

/-- C2 witness: the theorem applied to a concrete two-entry layer. -/
theorem C2_witness :
    (((Layer.mk 1 [([0], 0), ([0, 1], 1)] true [] [] [] []).sorted = true →
        List.Pairwise entryLe (Layer.mk 1 [([0], 0), ([0, 1], 1)] true [] [] [] []).tree) ∧
      (∀ e ∈ (Layer.mk 1 [([0], 0), ([0, 1], 1)] true [] [] [] []).tree,
        (Layer.mk 1 [([0], 0), ([0, 1], 1)] true [] [] [] []).min_depth ≤ e.1.length)) ∧
    ((Layer.mk 1 [([0], 0), ([0, 1], 1)] true [] [] [] []).par_scan_filtered 8 (fun _ _ => true) =
        (Layer.mk 1 [([0], 0), ([0, 1], 1)] true [] [] [] []).scan_filtered (fun _ _ => true) ∧
      (∀ e1 ∈ (Layer.mk 1 [([0], 0), ([0, 1], 1)] true [] [] [] []).sort.tree.take
          (findSplit (Layer.mk 1 [([0], 0), ([0, 1], 1)] true [] [] [] []).sort.min_depth
            (Layer.mk 1 [([0], 0), ([0, 1], 1)] true [] [] [] []).sort.tree
            ((Layer.mk 1 [([0], 0), ([0, 1], 1)] true [] [] [] []).sort.tree.length / 2)),
        ∀ e2 ∈ (Layer.mk 1 [([0], 0), ([0, 1], 1)] true [] [] [] []).sort.tree.drop
          (findSplit (Layer.mk 1 [([0], 0), ([0, 1], 1)] true [] [] [] []).sort.min_depth
            (Layer.mk 1 [([0], 0), ([0, 1], 1)] true [] [] [] []).sort.tree
            ((Layer.mk 1 [([0], 0), ([0, 1], 1)] true [] [] [] []).sort.tree.length / 2)),
        overlapsB e1.1 e2.1 = false)) :=
  ⟨⟨fun _ => by decide, by decide⟩,
    C2_par_scan_filtered_eq_scan_filtered (Layer.mk 1 [([0], 0), ([0, 1], 1)] true [] [] [] [])
      8 (fun _ _ => true) (fun _ => by decide) (by decide)⟩

/-! ## Mutation surface: extend, clear, sort, merge -/

theorem extend_spec {β : Type} (contains : β → Bool) (inds : β → List Idx) :
    ∀ (objs : List (β × Nat)) (L : Layer),
      (L.extend contains inds objs).tree = L.tree ++ extendEntries contains inds objs ∧
      (L.extend contains inds objs).invalid = L.invalid ++ extendInvalid contains objs ∧
      (L.extend contains inds objs).sorted =
        (L.sorted && ! objs.any (fun o => contains o.1)) ∧
      (L.extend contains inds objs).min_depth = L.min_depth := by
  intro objs
  induction objs with
  | nil =>
    intro L
    simp [Layer.extend, extendEntries, extendInvalid]
  | cons o rest ih =>
    intro L
    by_cases hc : contains o.1 = true
    · have hstep : L.extend contains inds (o :: rest) =
          Layer.extend { L with
            tree := L.tree ++ (inds o.1).map (fun ix => (ix, o.2)),
            sorted := false } contains inds rest := by
        unfold Layer.extend
        rw [List.foldl_cons, if_pos hc]
      rw [hstep]
      obtain ⟨h1, h2, h3, h4⟩ := ih _
      refine ⟨?_, ?_, ?_, ?_⟩
      · rw [h1]
        simp [extendEntries, hc]
      · rw [h2]
        simp [extendInvalid, hc]
      · rw [h3]
        simp [hc]
      · exact h4
    · have hstep : L.extend contains inds (o :: rest) =
          Layer.extend { L with invalid := L.invalid ++ [o.2] } contains inds rest := by
        unfold Layer.extend
        rw [List.foldl_cons, if_neg hc]
      rw [hstep]
      obtain ⟨h1, h2, h3, h4⟩ := ih _
      rw [Bool.not_eq_true] at hc
      refine ⟨?_, ?_, ?_, ?_⟩
      · rw [h1]
        simp [extendEntries, hc]
      · rw [h2]
        simp [extendInvalid, hc]
      · rw [h3]
        simp [hc]
      · exact h4

/-- Entries appended by `extend` when every object is rejected: none. -/
theorem extendEntries_nil {β : Type} {contains : β → Bool} {inds : β → List Idx}
    {objs : List (β × Nat)} (hall : ∀ o ∈ objs, contains o.1 = false) :
    extendEntries contains inds objs = [] := by
  induction objs with
  | nil => rfl
  | cons o rest ih =>
    unfold extendEntries
    rw [List.foldr_cons, if_neg (by simp [hall o (by simp)])]
    exact ih (fun o' ho' => hall o' (List.mem_cons_of_mem o ho'))

/-- C7: behaviour of the sorted flag.  `clear` empties the tree and sets the
flag; `sort` (and the identically modelled `par_sort`) is a no-op when the
flag is set and otherwise sorts and sets it; `extend` clears the flag as soon
as an object is accepted (in particular whenever an entry is added), and
leaves flag and tree alone when every object is rejected; `merge` clears the
flag; and the invariant "flag set implies entries ascending by (Index, ID)"
is established by `sort` and preserved by `clear` and `extend`. -/
theorem C7_sorted_flag (L other : Layer) {β : Type} (contains : β → Bool)
    (inds : β → List Idx) (objs : List (β × Nat))
    (hinv : L.sorted = true → List.Pairwise entryLe L.tree) :
    (L.clear.sorted = true ∧ L.clear.tree = []) ∧
    (L.sorted = true → L.sort = L) ∧
    (L.sort.sorted = true ∧ List.Pairwise entryLe L.sort.tree) ∧
    ((∃ o ∈ objs, contains o.1 = true) →
      (L.extend contains inds objs).sorted = false) ∧
    ((∀ o ∈ objs, contains o.1 = false) →
      (L.extend contains inds objs).sorted = L.sorted ∧
      (L.extend contains inds objs).tree = L.tree) ∧
    ((L.merge other).sorted = false) ∧
    (L.clear.sorted = true → List.Pairwise entryLe L.clear.tree) ∧
    ((L.extend contains inds objs).sorted = true →
      List.Pairwise entryLe (L.extend contains inds objs).tree) := by
  obtain ⟨he1, he2, he3, he4⟩ := extend_spec contains inds objs L
  have hsorted : L.sort.sorted = true := by
    unfold Layer.sort
    by_cases h : L.sorted <;> simp [h]
  have hpw : List.Pairwise entryLe L.sort.tree := sort_tree_pairwise L hinv
  refine ⟨⟨rfl, rfl⟩, fun h => sort_of_sorted h, ⟨hsorted, hpw⟩, ?_, ?_, rfl, ?_, ?_⟩
  · intro ⟨o, ho, hco⟩
    rw [he3]
    have : objs.any (fun o => contains o.1) = true := List.any_eq_true.mpr ⟨o, ho, hco⟩
    simp [this]
  · intro hall
    have hany : objs.any (fun o => contains o.1) = false := by
      rw [List.any_eq_false]
      intro o ho
      simp [hall o ho]
    refine ⟨by rw [he3, hany]; simp, ?_⟩
    rw [he1, extendEntries_nil hall, List.append_nil]
  · intro _
    simp [Layer.clear]
  · intro hs
    rw [he3] at hs
    simp only [Bool.and_eq_true, Bool.not_eq_true'] at hs
    obtain ⟨hLs, hnone⟩ := hs
    have htree : extendEntries contains inds objs = [] := by
      rw [List.any_eq_false] at hnone
      exact extendEntries_nil (fun o ho => by
        have := hnone o ho
        simpa using this)
    rw [he1, htree, List.append_nil]
    exact hinv hLs

/-- C7 witness: the flag behaviour theorem applied to concrete layers and a
concrete extend batch (one accepted object, one rejected object). -/
theorem C7_witness :
    ((Layer.mk 0 [([0], 0)] true [] [] [] []).sorted = true →
      List.Pairwise entryLe (Layer.mk 0 [([0], 0)] true [] [] [] []).tree) ∧
    (((Layer.mk 0 [([0], 0)] true [] [] [] []).clear.sorted = true ∧
        (Layer.mk 0 [([0], 0)] true [] [] [] []).clear.tree = []) ∧
      ((Layer.mk 0 [([0], 0)] true [] [] [] []).sorted = true →
        (Layer.mk 0 [([0], 0)] true [] [] [] []).sort = Layer.mk 0 [([0], 0)] true [] [] [] []) ∧
      ((Layer.mk 0 [([0], 0)] true [] [] [] []).sort.sorted = true ∧
        List.Pairwise entryLe (Layer.mk 0 [([0], 0)] true [] [] [] []).sort.tree) ∧
      ((∃ o ∈ [((3 : Nat), (7 : Nat)), (12, 9)], (fun b => decide (b < 10)) o.1 = true) →
        ((Layer.mk 0 [([0], 0)] true [] [] [] []).extend (fun b => decide (b < 10))
          (fun b => [[b]]) [((3 : Nat), (7 : Nat)), (12, 9)]).sorted = false) ∧
      ((∀ o ∈ [((3 : Nat), (7 : Nat)), (12, 9)], (fun b => decide (b < 10)) o.1 = false) →
        ((Layer.mk 0 [([0], 0)] true [] [] [] []).extend (fun b => decide (b < 10))
          (fun b => [[b]]) [((3 : Nat), (7 : Nat)), (12, 9)]).sorted =
          (Layer.mk 0 [([0], 0)] true [] [] [] []).sorted ∧
        ((Layer.mk 0 [([0], 0)] true [] [] [] []).extend (fun b => decide (b < 10))
          (fun b => [[b]]) [((3 : Nat), (7 : Nat)), (12, 9)]).tree =
          (Layer.mk 0 [([0], 0)] true [] [] [] []).tree) ∧
      (((Layer.mk 0 [([0], 0)] true [] [] [] []).merge
          (Layer.mk 1 [([1], 1)] true [] [] [] [])).sorted = false) ∧
      ((Layer.mk 0 [([0], 0)] true [] [] [] []).clear.sorted = true →
        List.Pairwise entryLe (Layer.mk 0 [([0], 0)] true [] [] [] []).clear.tree) ∧
      (((Layer.mk 0 [([0], 0)] true [] [] [] []).extend (fun b => decide (b < 10))
          (fun b => [[b]]) [((3 : Nat), (7 : Nat)), (12, 9)]).sorted = true →
        List.Pairwise entryLe ((Layer.mk 0 [([0], 0)] true [] [] [] []).extend
          (fun b => decide (b < 10)) (fun b => [[b]]) [((3 : Nat), (7 : Nat)), (12, 9)]).tree)) :=
  ⟨fun _ => by decide,
    C7_sorted_flag (Layer.mk 0 [([0], 0)] true [] [] [] [])
      (Layer.mk 1 [([1], 1)] true [] [] [] []) (fun b => decide (b < 10))
      (fun b => [[b]]) [((3 : Nat), (7 : Nat)), (12, 9)] (fun _ => by decide)⟩

/-! ## Test kernel: unfolding equations and slice-partition lemmas -/

theorem test_impl_nil {σ : Type} (b : Nat) (st : Idx → Qi → Bool) (ord : Idx → List Nat)
    (maxDepth : Option Nat) (cb : σ → Idx → Qi → Nat → Qi × σ) (fuel : Nat) (cell : Idx)
    (n : Qi) (s : σ) : test_impl b st ord maxDepth cb fuel [] cell n s = .ok (n, s) := by
  cases fuel <;> rfl

theorem test_impl_zero {σ : Type} (b : Nat) (st : Idx → Qi → Bool) (ord : Idx → List Nat)
    (maxDepth : Option Nat) (cb : σ → Idx → Qi → Nat → Qi × σ) (e : Entry) (t' : List Entry)
    (cell : Idx) (n : Qi) (s : σ) :
    test_impl b st ord maxDepth cb 0 (e :: t') cell n s =
      (if ! st cell n then .ok (n, s)
       else if idxLtB e.1 cell || ! overlapsB cell ((e :: t').getLastD e).1 then .error ()
       else .ok (foldFlat cb cell (e :: t') n s)) := rfl

theorem test_impl_succ {σ : Type} (b : Nat) (st : Idx → Qi → Bool) (ord : Idx → List Nat)
    (maxDepth : Option Nat) (cb : σ → Idx → Qi → Nat → Qi × σ) (fuel : Nat) (e : Entry)
    (t' : List Entry) (cell : Idx) (n : Qi) (s : σ) :
    test_impl b st ord maxDepth cb (fuel + 1) (e :: t') cell n s =
      (if ! st cell n then .ok (n, s)
       else if idxLtB e.1 cell || ! overlapsB cell ((e :: t').getLastD e).1 then .error ()
       else if (match maxDepth with | some d => decide (d ≤ cell.length) | none => false) then
         .ok (foldFlat cb cell (e :: t') n s)
       else
         test_children (test_impl b st ord maxDepth cb fuel) (ord cell)
           (scanSplit ((List.range b).map (fun k => cell ++ [k])) (e :: t')).tail
           ((List.range b).map (fun k => cell ++ [k]))
           (foldFlat cb cell
             ((scanSplit ((List.range b).map (fun k => cell ++ [k])) (e :: t')).headD []) n s).1
           (foldFlat cb cell
             ((scanSplit ((List.range b).map (fun k => cell ++ [k])) (e :: t')).headD []) n s).2) := rfl

theorem test_children_nil {σ : Type} (rec : List Entry → Idx → Qi → σ → Except Unit (Qi × σ))
    (slices : List (List Entry)) (cells : List Idx) (n : Qi) (s : σ) :
    test_children rec [] slices cells n s = .ok (n, s) := rfl

theorem test_children_cons {σ : Type} (rec : List Entry → Idx → Qi → σ → Except Unit (Qi × σ))
    (i : Nat) (rest : List Nat) (slices : List (List Entry)) (cells : List Idx) (n : Qi) (s : σ) :
    test_children rec (i :: rest) slices cells n s =
      (match rec (slices.getD i []) (cells.getD i []) n s with
       | .error e => .error e
       | .ok r => test_children rec rest slices cells r.1 r.2) := rfl

theorem foldFlat_nil {σ : Type} (cb : σ → Idx → Qi → Nat → Qi × σ) (cell : Idx) (n : Qi) (s : σ) :
    foldFlat cb cell [] n s = (n, s) := rfl

theorem foldFlat_cons {σ : Type} (cb : σ → Idx → Qi → Nat → Qi × σ) (cell : Idx) (e : Entry)
    (t : List Entry) (n : Qi) (s : σ) :
    foldFlat cb cell (e :: t) n s =
      foldFlat cb cell t (min (cb s cell n e.2).1 n) (cb s cell n e.2).2 := rfl

theorem scanSplit_join : ∀ (cs : List Idx) (t : List Entry), (scanSplit cs t).flatten = t := by
  intro cs
  induction cs with
  | nil => intro t; simp [scanSplit]
  | cons c cs' ih =>
    intro t
    unfold scanSplit
    rw [List.flatten_cons, ih]
    exact List.takeWhile_append_dropWhile ..

theorem scanSplit_length (cs : List Idx) (t : List Entry) :
    (scanSplit cs t).length = cs.length + 1 := by
  induction cs generalizing t with
  | nil => rfl
  | cons c cs' ih => simp [scanSplit, ih]

theorem scanSplit_piece_sublist :
    ∀ (cs : List Idx) (t : List Entry) (p : List Entry), p ∈ scanSplit cs t → p.Sublist t := by
  intro cs
  induction cs with
  | nil =>
    intro t p hp
    rcases List.mem_singleton.mp hp with rfl
    exact List.Sublist.refl _
  | cons c cs' ih =>
    intro t p hp
    unfold scanSplit at hp
    rcases List.mem_cons.mp hp with rfl | hp'
    · exact List.takeWhile_sublist _
    · exact ((ih _ p hp').trans (List.dropWhile_sublist _))

theorem mem_takeWhile_pred {α : Type} {p : α → Bool} :
    ∀ {l : List α} {x : α}, x ∈ l.takeWhile p → p x = true := by
  intro l
  induction l with
  | nil => intro x hx; simp at hx
  | cons a u ih =>
    intro x hx
    rw [List.takeWhile_cons] at hx
    by_cases ha : p a = true
    · rw [if_pos ha] at hx
      rcases List.mem_cons.mp hx with rfl | hx'
      · exact ha
      · exact ih hx'
    · rw [if_neg ha] at hx
      simp at hx

theorem idxLtB_of_lt_of_le {a b c : Idx} (h1 : idxLtB a b = true) (h2 : idxLeB b c = true) :
    idxLtB a c = true := by
  rw [idxLeB_iff] at h2
  rcases h2 with h2 | rfl
  · exact idxLtB_trans h1 h2
  · exact h1

theorem idxLtB_of_le_of_lt {a b c : Idx} (h1 : idxLeB a b = true) (h2 : idxLtB b c = true) :
    idxLtB a c = true := by
  rw [idxLeB_iff] at h1
  rcases h1 with h1 | rfl
  · exact idxLtB_trans h1 h2
  · exact h2

theorem mem_dropWhile_not_lt {c : Idx} :
    ∀ {t : List Entry}, List.Pairwise entryLe t →
      ∀ e ∈ t.dropWhile (fun e => idxLtB e.1 c), idxLtB e.1 c = false := by
  intro t
  induction t with
  | nil => intro _ e he; simp at he
  | cons a u ih =>
    intro hpw e he
    rw [List.pairwise_cons] at hpw
    rw [List.dropWhile_cons] at he
    by_cases ha : idxLtB a.1 c = true
    · rw [if_pos ha] at he
      exact ih hpw.2 e he
    · rw [if_neg ha] at he
      rw [Bool.not_eq_true] at ha
      rcases List.mem_cons.mp he with rfl | he'
      · exact ha
      · rcases Bool.eq_false_or_eq_true (idxLtB e.1 c) with h | h
        · have hae : idxLeB a.1 e.1 = true := entryLe_cells (hpw.1 e he')
          exact absurd (idxLtB_of_le_of_lt hae h) (by simp [ha])
        · exact h

theorem getD_map_range {α : Type} (f : Nat → α) (d : α) {b k : Nat} (hk : k < b) :
    ((List.range b).map f).getD k d = f k := by
  rw [List.getD_eq_getElem _ _ (by simpa using hk)]
  simp

theorem scanSplit_bounds :
    ∀ (cs : List Idx) (t : List Entry), List.Pairwise entryLe t →
      ∀ k, k < cs.length → ∀ e ∈ (scanSplit cs t).tail.getD k [],
        idxLeB (cs.getD k []) e.1 = true ∧
        (k + 1 < cs.length → idxLtB e.1 (cs.getD (k + 1) []) = true) := by
  intro cs
  induction cs with
  | nil => intro t _ k hk; simp at hk
  | cons c cs' ih =>
    intro t hpw k hk e he
    unfold scanSplit at he
    rw [List.tail_cons] at he
    have hpw' : List.Pairwise entryLe (t.dropWhile (fun e => idxLtB e.1 c)) :=
      hpw.sublist (List.dropWhile_sublist _)
    cases k with
    | zero =>
      cases cs' with
      | nil =>
        simp only [scanSplit, List.getD_cons_zero] at he
        constructor
        · exact idxLeB_of_not_lt (mem_dropWhile_not_lt hpw e he)
        · intro h
          simp at h
      | cons c1 cs'' =>
        simp only [scanSplit, List.getD_cons_zero] at he
        constructor
        · have he' : e ∈ t.dropWhile (fun e => idxLtB e.1 c) :=
            (List.takeWhile_sublist _).mem he
          exact idxLeB_of_not_lt (mem_dropWhile_not_lt hpw e he')
        · intro _
          rw [List.getD_cons_succ, List.getD_cons_zero]
          exact mem_takeWhile_pred (p := fun (x : Entry) => idxLtB x.1 c1) he
    | succ k' =>
      have hk' : k' < cs'.length := by
        simp only [List.length_cons] at hk
        omega
      have he' : e ∈ (scanSplit cs' (t.dropWhile (fun e => idxLtB e.1 c))).tail.getD k' [] := by
        cases hs : scanSplit cs' (t.dropWhile (fun e => idxLtB e.1 c)) with
        | nil =>
          have hlen := scanSplit_length cs' (t.dropWhile (fun e => idxLtB e.1 c))
          rw [hs] at hlen
          simp at hlen
        | cons p ps =>
          rw [hs, List.getD_cons_succ] at he
          simpa using he
      have := ih (t.dropWhile (fun e => idxLtB e.1 c)) hpw' k' hk' e he'

      refine ⟨by rw [List.getD_cons_succ]; exact this.1, ?_⟩
      intro h
      rw [List.getD_cons_succ]
      refine this.2 ?_
      simp only [List.length_cons] at h
      omega

theorem scanSplit_tail_length (cs : List Idx) (t : List Entry) :
    (scanSplit cs t).tail.length = cs.length := by
  rw [List.length_tail, scanSplit_length]
  omega

theorem scanSplit_tail_getD_sublist (cs : List Idx) (t : List Entry) (i : Nat) :
    ((scanSplit cs t).tail.getD i []).Sublist t := by
  by_cases hi : i < (scanSplit cs t).tail.length
  · rw [List.getD_eq_getElem _ _ hi]
    refine scanSplit_piece_sublist cs t _ ?_
    exact (List.tail_sublist _).mem (List.getElem_mem hi)
  · rw [List.getD_eq_default _ _ (by omega)]
    exact List.nil_sublist t

theorem scanSplit_headD_sublist (cs : List Idx) (t : List Entry) :
    ((scanSplit cs t).headD []).Sublist t := by
  cases hs : scanSplit cs t with
  | nil =>
    have := scanSplit_length cs t
    rw [hs] at this
    simp at this
  | cons p ps =>
    rw [List.headD_cons]
    exact scanSplit_piece_sublist cs t p (by rw [hs]; simp)

theorem not_lt_of_anc {cell p : Idx} (h : isAncB cell p = true) : idxLtB p cell = false := by
  rcases Bool.eq_false_or_eq_true (idxLtB p cell) with hl | hl
  · have h1 : idxLeB cell p = true := idxLeB_of_anc h
    have h2 : idxLtB p p = true := idxLtB_of_lt_of_le hl h1
    rw [idxLtB_irrefl] at h2
    exact absurd h2 (by simp)
  · exact hl

theorem getLastD_cons_mem (e : Entry) (t : List Entry) : (e :: t).getLastD e ∈ e :: t := by
  induction t generalizing e with
  | nil => simp
  | cons a u ih =>
    rw [List.getLastD_cons]
    exact List.mem_cons_of_mem e (by simpa using ih a)

theorem test_children_ok {σ : Type} (rec : List Entry → Idx → Qi → σ → Except Unit (Qi × σ))
    (slices : List (List Entry)) (cells : List Idx) :
    ∀ (order : List Nat),
      (∀ i ∈ order, ∀ (n : Qi) (s : σ), ∃ r, rec (slices.getD i []) (cells.getD i []) n s = .ok r) →
      ∀ (n : Qi) (s : σ), ∃ r, test_children rec order slices cells n s = .ok r := by
  intro order
  induction order with
  | nil => intro _ n s; exact ⟨(n, s), rfl⟩
  | cons i rest ih =>
    intro hrec n s
    rw [test_children_cons]
    obtain ⟨r, hr⟩ := hrec i (by simp) n s
    rw [hr]
    exact ih (fun j hj => hrec j (List.mem_cons_of_mem i hj)) r.1 r.2

/-- On a sorted, digit-wellformed slice lying entirely inside `cell`, the
traversal kernel never panics: the containment assertion holds at every level
of the recursion. -/
theorem test_impl_no_panic {σ : Type} (b : Nat) (st : Idx → Qi → Bool) (ord : Idx → List Nat)
    (maxDepth : Option Nat) (cb : σ → Idx → Qi → Nat → Qi × σ) :
    ∀ (fuel : Nat) (t : List Entry) (cell : Idx) (n : Qi) (s : σ),
      List.Pairwise entryLe t →
      (∀ e ∈ t, ∀ d ∈ e.1, d < b) →
      (∀ e ∈ t, isAncB cell e.1 = true) →
      ∃ r, test_impl b st ord maxDepth cb fuel t cell n s = .ok r := by
  intro fuel
  induction fuel with
  | zero =>
    intro t cell n s hpw hwf hanc
    cases t with
    | nil => exact ⟨(n, s), test_impl_nil ..⟩
    | cons e t' =>
      rw [test_impl_zero]
      by_cases hst : st cell n = true
      · rw [if_neg (by simp [hst])]
        have hlast := hanc _ (getLastD_cons_mem e t')
        rw [if_neg (by
          simp only [not_lt_of_anc (hanc e (by simp)), overlapsB, hlast]
          simp)]
        exact ⟨_, rfl⟩
      · rw [Bool.not_eq_true] at hst
        rw [if_pos (by simp [hst])]
        exact ⟨(n, s), rfl⟩
  | succ fuel ih =>
    intro t cell n s hpw hwf hanc
    cases t with
    | nil => exact ⟨(n, s), test_impl_nil ..⟩
    | cons e t' =>
      rw [test_impl_succ]
      by_cases hst : st cell n = true
      · rw [if_neg (by simp [hst])]
        have hlast := hanc _ (getLastD_cons_mem e t')
        rw [if_neg (by
          simp only [not_lt_of_anc (hanc e (by simp)), overlapsB, hlast]
          simp)]
        split
        · exact ⟨_, rfl⟩
        · refine test_children_ok _ _ _ (ord cell) ?_ _ _
          intro i _ n1 s1
          by_cases hib : i < b
          · have hsub : ((scanSplit ((List.range b).map (fun k => cell ++ [k]))
                (e :: t')).tail.getD i []).Sublist (e :: t') :=
              scanSplit_tail_getD_sublist ..
            have hcells : ((List.range b).map (fun k => cell ++ [k])).getD i [] = cell ++ [i] :=
              getD_map_range _ _ hib
            rw [hcells]
            refine ih _ _ n1 s1 (hpw.sublist hsub) (fun e' he' => hwf e' (hsub.mem he')) ?_
            intro e' he'
            have hb := scanSplit_bounds ((List.range b).map (fun k => cell ++ [k])) (e :: t')
              hpw i (by simpa using hib) e' he'
            have hlow : idxLeB (cell ++ [i]) e'.1 = true := by
              rw [← hcells]
              exact hb.1
            have hanc' : isAncB cell e'.1 = true := hanc e' (hsub.mem he')
            by_cases hnext : i + 1 < b
            · have hup : idxLtB e'.1 (cell ++ [i + 1]) = true := by
                have := hb.2 (by simpa using hnext)
                rw [getD_map_range _ _ hnext] at this
                exact this
              exact isAncB_child_of_range hanc' hlow hup
            · have hieq : i = b - 1 := by omega
              subst hieq
              exact isAncB_last_child hanc' hlow (by omega)
                (fun d hd' => hwf e' (hsub.mem he') d hd')
          · have hlen : ((scanSplit ((List.range b).map (fun k => cell ++ [k]))
                (e :: t')).tail).length ≤ i := by
              rw [scanSplit_tail_length]
              simpa using (by omega : b ≤ i)
            rw [List.getD_eq_default _ _ hlen]
            exact ⟨(n1, s1), test_impl_nil ..⟩
      · rw [Bool.not_eq_true] at hst
        rw [if_pos (by simp [hst])]
        exact ⟨(n, s), rfl⟩

theorem getLastD_cons_irrel (e : Entry) (t' : List Entry) (d1 d2 : Entry) :
    (e :: t').getLastD d1 = (e :: t').getLastD d2 := by
  rw [List.getLastD_cons, List.getLastD_cons]

theorem getLast?_cons_eq (t' : List Entry) :
    ∀ (e d : Entry), (e :: t').getLast? = some ((e :: t').getLastD d) := by
  induction t' with
  | nil => intro e d; rfl
  | cons a u ih =>
    intro e d
    rw [List.getLast?_cons_cons, ih a d]
    simp only [List.getLastD_cons]

/-- C6: on a sorted, digit-wellformed slice, `test_impl` panics (the
`InvariantViolation` diagnostic about non-overlapping indices) if and only if
the slice is non-empty, `should_test` accepts the current cutoff, and the
containment precondition is violated (first entry's code below `cell`, or
`cell` not overlapping the last entry's code); when the slice is empty or
`should_test` rejects, it returns `nearest` and the state unchanged without
checking the precondition. -/
theorem C6_test_impl_panic_iff {σ : Type} (b : Nat) (st : Idx → Qi → Bool)
    (ord : Idx → List Nat) (maxDepth : Option Nat) (cb : σ → Idx → Qi → Nat → Qi × σ)
    (fuel : Nat) (t : List Entry) (cell : Idx) (n : Qi) (s : σ)
    (hpw : List.Pairwise entryLe t) (hwf : ∀ e ∈ t, ∀ d ∈ e.1, d < b) :
    (test_impl b st ord maxDepth cb fuel t cell n s = .error () ↔
      t ≠ [] ∧ st cell n = true ∧
        (idxLtB (t.headD ([], 0)).1 cell = true ∨
          overlapsB cell (t.getLastD ([], 0)).1 = false)) ∧
    ((t = [] ∨ st cell n = false) → test_impl b st ord maxDepth cb fuel t cell n s = .ok (n, s)) := by
  have hok2 : (t = [] ∨ st cell n = false) →
      test_impl b st ord maxDepth cb fuel t cell n s = .ok (n, s) := by
    rintro (rfl | hst)
    · exact test_impl_nil ..
    · cases t with
      | nil => exact test_impl_nil ..
      | cons e t' =>
        cases fuel with
        | zero => rw [test_impl_zero, if_pos (by simp [hst])]
        | succ fuel => rw [test_impl_succ, if_pos (by simp [hst])]
  refine ⟨⟨?_, ?_⟩, hok2⟩
  · -- error implies the three conditions, by contraposition through no-panic
    intro herr
    by_contra hcon
    rw [not_and_or, not_and_or] at hcon
    have hok : ∃ r, test_impl b st ord maxDepth cb fuel t cell n s = .ok r := by
      rcases hcon with hne | hst | hviol
      · rw [not_ne_iff] at hne
        exact ⟨(n, s), hok2 (Or.inl hne)⟩
      · rcases Bool.eq_false_or_eq_true (st cell n) with h | h
        · exact absurd h hst
        · exact ⟨(n, s), hok2 (Or.inr h)⟩
      · push_neg at hviol
        obtain ⟨hfirst, hlast⟩ := hviol
        simp only [ne_eq, Bool.not_eq_true] at hfirst
        simp only [ne_eq, Bool.not_eq_false] at hlast
        refine test_impl_no_panic b st ord maxDepth cb fuel t cell n s hpw hwf ?_
        cases t with
        | nil => intro e he; simp at he
        | cons e0 t'' =>
          intro e he
          have hd0 : (e0 :: t'').headD ([], 0) = e0 := rfl
          rw [hd0] at hfirst
          have hle0 : idxLeB cell e0.1 = true := idxLeB_of_not_lt hfirst
          have hlast_mem : (e0 :: t'').getLastD ([], 0) ∈ e0 :: t'' := by
            rw [getLastD_cons_irrel e0 t'' ([], 0) e0]
            exact getLastD_cons_mem e0 t''
          have hanc_last : isAncB cell ((e0 :: t'').getLastD ([], 0)).1 = true := by
            have hle_last : idxLeB cell ((e0 :: t'').getLastD ([], 0)).1 = true := by
              rcases List.mem_cons.mp hlast_mem with heq | hmem'
              · rw [heq]
                exact hle0
              · have := (List.pairwise_cons.mp hpw).1 _ hmem'
                exact idxLeB_trans hle0 (entryLe_cells this)
            exact isAncB_of_overlaps_le hlast hle_last
          have hee : entryLe e ((e0 :: t'').getLastD ([], 0)) := by
            refine pairwise_le_getLast hpw e he _ ?_
            rw [getLast?_cons_eq t'' e0 ([], 0)]
            rfl
          have hle_e : idxLeB cell e.1 = true := by
            rcases List.mem_cons.mp he with rfl | hmem'
            · exact hle0
            · exact idxLeB_trans hle0 (entryLe_cells ((List.pairwise_cons.mp hpw).1 _ hmem'))
          exact isAncB_of_between hanc_last hle_e (entryLe_cells hee)
    obtain ⟨r, hr⟩ := hok
    rw [hr] at herr
    exact absurd herr (by simp)
  · rintro ⟨hne, hst, hviol⟩
    cases t with
    | nil => exact absurd rfl hne
    | cons e t' =>
      have hv : (idxLtB e.1 cell || ! overlapsB cell ((e :: t').getLastD e).1) = true := by
        rcases hviol with h | h
        · have : (e :: t').headD ([], 0) = e := rfl
          rw [this] at h
          simp [h]
        · rw [getLastD_cons_irrel e t' ([], 0) e] at h
          rw [h]
          simp
      cases fuel with
      | zero =>
        rw [test_impl_zero, if_neg (by simp [hst]), if_pos hv]
      | succ fuel =>
        rw [test_impl_succ, if_neg (by simp [hst]), if_pos hv]

/-- C6 witness: a one-entry slice below the nominal cell panics; the empty
slice returns unchanged. -/
theorem C6_witness :
    (List.Pairwise entryLe [(([0], 5) : Entry)] ∧
      (∀ e ∈ [(([0], 5) : Entry)], ∀ d ∈ e.1, d < 2)) ∧
    ((test_impl (σ := Unit) 2 (fun _ _ => true) (fun _ => [0, 1]) none
        (fun s _ n _ => (n, s)) 3 [(([0], 5) : Entry)] [1] ⊤ () = .error () ↔
      [(([0], 5) : Entry)] ≠ [] ∧ (fun (_ : Idx) (_ : Qi) => true) [1] ⊤ = true ∧
        (idxLtB ([(([0], 5) : Entry)].headD ([], 0)).1 [1] = true ∨
          overlapsB [1] ([(([0], 5) : Entry)].getLastD ([], 0)).1 = false)) ∧
    (([(([0], 5) : Entry)] = [] ∨ (fun (_ : Idx) (_ : Qi) => true) [1] ⊤ = false) →
      test_impl (σ := Unit) 2 (fun _ _ => true) (fun _ => [0, 1]) none
        (fun s _ n _ => (n, s)) 3 [(([0], 5) : Entry)] [1] ⊤ () = .ok (⊤, ()))) :=
  ⟨⟨by decide, by decide⟩,
    C6_test_impl_panic_iff 2 (fun _ _ => true) (fun _ => [0, 1]) none
      (fun s _ n _ => (n, s)) 3 [(([0], 5) : Entry)] [1] ⊤ () (by decide) (by decide)⟩

/-! ## Generic kernel lemmas: state invariants, simulation, traces -/

theorem foldFlat_inv {σ : Type} (cb : σ → Idx → Qi → Nat → Qi × σ) (I : σ → Qi → Prop)
    (hcb : ∀ s c n i, I s n → I (cb s c n i).2 (min (cb s c n i).1 n)) :
    ∀ (t : List Entry) (cell : Idx) (n : Qi) (s : σ), I s n →
      I (foldFlat cb cell t n s).2 (foldFlat cb cell t n s).1 := by
  intro t
  induction t with
  | nil => intro cell n s h; rw [foldFlat_nil]; exact h
  | cons e t' ih =>
    intro cell n s h
    rw [foldFlat_cons]
    exact ih cell _ _ (hcb s cell n e.2 h)

theorem test_children_inv {σ : Type} (rec : List Entry → Idx → Qi → σ → Except Unit (Qi × σ))
    (I : σ → Qi → Prop)
    (hrec : ∀ t c (n : Qi) s (n' : Qi) s', I s n → rec t c n s = .ok (n', s') → I s' n') :
    ∀ (order : List Nat) (slices : List (List Entry)) (cells : List Idx)
      (n : Qi) (s : σ) (n' : Qi) (s' : σ), I s n →
      test_children rec order slices cells n s = .ok (n', s') → I s' n' := by
  intro order
  induction order with
  | nil =>
    intro slices cells n s n' s' h hrun
    rw [test_children_nil] at hrun
    obtain ⟨rfl, rfl⟩ := Prod.mk.injEq .. ▸ Except.ok.inj hrun
    exact h
  | cons i rest ih =>
    intro slices cells n s n' s' h hrun
    rw [test_children_cons] at hrun
    cases hr : rec (slices.getD i []) (cells.getD i []) n s with
    | error e => rw [hr] at hrun; exact absurd hrun (by simp)
    | ok r =>
      rw [hr] at hrun
      exact ih _ _ _ _ _ _ (hrec _ _ _ _ _ _ h hr) hrun

theorem test_impl_inv {σ : Type} (b : Nat) (st : Idx → Qi → Bool) (ord : Idx → List Nat)
    (maxDepth : Option Nat) (cb : σ → Idx → Qi → Nat → Qi × σ) (I : σ → Qi → Prop)
    (hcb : ∀ s c n i, I s n → I (cb s c n i).2 (min (cb s c n i).1 n)) :
    ∀ (fuel : Nat) (t : List Entry) (cell : Idx) (n : Qi) (s : σ) (n' : Qi) (s' : σ),
      I s n → test_impl b st ord maxDepth cb fuel t cell n s = .ok (n', s') → I s' n' := by
  intro fuel
  induction fuel with
  | zero =>
    intro t cell n s n' s' h hrun
    cases t with
    | nil =>
      rw [test_impl_nil] at hrun
      obtain ⟨rfl, rfl⟩ := Prod.mk.injEq .. ▸ Except.ok.inj hrun
      exact h
    | cons e t' =>
      rw [test_impl_zero] at hrun
      split at hrun
      · obtain ⟨rfl, rfl⟩ := Prod.mk.injEq .. ▸ Except.ok.inj hrun
        exact h
      · split at hrun
        · exact absurd hrun (by simp)
        · have hfl := Except.ok.inj hrun
          have h1 : (foldFlat cb cell (e :: t') n s).1 = n' := by rw [hfl]
          have h2 : (foldFlat cb cell (e :: t') n s).2 = s' := by rw [hfl]
          rw [← h1, ← h2]
          exact foldFlat_inv cb I hcb _ _ _ _ h
  | succ fuel ih =>
    intro t cell n s n' s' h hrun
    cases t with
    | nil =>
      rw [test_impl_nil] at hrun
      obtain ⟨rfl, rfl⟩ := Prod.mk.injEq .. ▸ Except.ok.inj hrun
      exact h
    | cons e t' =>
      rw [test_impl_succ] at hrun
      split at hrun
      · obtain ⟨rfl, rfl⟩ := Prod.mk.injEq .. ▸ Except.ok.inj hrun
        exact h
      · split at hrun
        · exact absurd hrun (by simp)
        · split at hrun
          · have hfl := Except.ok.inj hrun
            have h1 : (foldFlat cb cell (e :: t') n s).1 = n' := by rw [hfl]
            have h2 : (foldFlat cb cell (e :: t') n s).2 = s' := by rw [hfl]
            rw [← h1, ← h2]
            exact foldFlat_inv cb I hcb _ _ _ _ h
          · exact test_children_inv _ I (fun t c n0 s0 n1 s1 h0 hr => ih t c n0 s0 n1 s1 h0 hr)
              _ _ _ _ _ _ _ (foldFlat_inv cb I hcb _ _ _ _ h) hrun

/-- C10: `pick` returns `Some` only when some id obtains a finite distance
strictly below the running cutoff (which starts at `max_dist` and never
increases): an id whose `get_dist` result never drops strictly below the
current cutoff — e.g. always exactly `max_dist`, or always the current
`nearest` — is never returned as the best hit; and `pick` on an empty tree
returns `None`. -/
theorem C10_pick_no_improvement_never_best (b MD : Nat) (st : Idx → Qi → Bool)
    (ord : Idx → List Nat) (maxDist : Qi) (maxDepth : Option Nat)
    (getDist : Idx → Qi → Nat → Qi) (tree : List Entry) (id : Nat)
    (h : ∀ (c : Idx) (n : Qi), n ≤ maxDist → ¬ (getDist c n id < n)) :
    (∀ d : Qi, pickRun b MD st ord maxDist maxDepth getDist tree ≠ .ok (some (d, id))) ∧
    pickRun b MD st ord maxDist maxDepth getDist [] = .ok none := by
  constructor
  · intro d hcontra
    unfold pickRun at hcontra
    cases hrun : test_impl b st ord maxDepth (pickCb getDist) MD tree [] maxDist ([], none) with
    | error e => rw [hrun] at hcontra; exact absurd hcontra (by simp [Except.map])
    | ok r =>
      rw [hrun] at hcontra
      simp only [Except.map] at hcontra
      have hres : r.2.2 = some id := by
        cases hr2 : r.2.2 with
        | none => rw [hr2] at hcontra; simp at hcontra
        | some i =>
          rw [hr2] at hcontra
          simp only [Option.map_some'] at hcontra
          have h1 := Except.ok.inj hcontra
          have h2 := Option.some.inj h1
          have hii : i = id := congrArg Prod.snd h2
          rw [hii]
      have hinv := test_impl_inv b st ord maxDepth (pickCb getDist)
        (fun s n => n ≤ maxDist ∧ s.2 ≠ some id) ?_ MD tree [] maxDist ([], none) r.1 r.2
        ⟨le_refl _, by simp⟩ hrun
      · exact hinv.2 hres
      · intro s c n i ⟨hn, hrs⟩
        unfold pickCb
        by_cases hmem : i ∈ s.1
        · rw [if_pos hmem]
          exact ⟨by simpa using hn, hrs⟩
        · rw [if_neg hmem]
          refine ⟨le_trans (min_le_right _ _) hn, ?_⟩
          by_cases hlt : getDist c n i < n
          · rw [if_pos hlt]
            intro hsome
            have hii : i = id := Option.some.inj hsome
            rw [hii] at hlt
            exact h c n hn hlt
          · rw [if_neg hlt]
            exact hrs
  · unfold pickRun
    rw [test_impl_nil]
    rfl

/-- C10 witness: an id whose distance always equals `max_dist` is never the
best hit, and the empty tree picks nothing. -/
theorem C10_witness :
    (∀ (c : Idx) (n : Qi), n ≤ ((5 : ℚ) : Qi) → ¬ ((fun (_ : Idx) (_ : Qi) (_ : Nat) =>
        ((5 : ℚ) : Qi)) c n 7 < n)) ∧
    ((∀ d : Qi, pickRun 2 3 (fun _ _ => true) (fun _ => [0, 1]) ((5 : ℚ) : Qi) none
        (fun _ _ _ => ((5 : ℚ) : Qi)) [([0], 7)] ≠ .ok (some (d, 7))) ∧
      pickRun 2 3 (fun _ _ => true) (fun _ => [0, 1]) ((5 : ℚ) : Qi) none
        (fun _ _ _ => ((5 : ℚ) : Qi)) [] = .ok none) :=
  ⟨fun _ _ hn => not_lt.mpr hn,
    C10_pick_no_improvement_never_best 2 3 (fun _ _ => true) (fun _ => [0, 1])
      ((5 : ℚ) : Qi) none (fun _ _ _ => ((5 : ℚ) : Qi)) [([0], 7)] 7
      (fun _ _ hn => not_lt.mpr hn)⟩

theorem foldFlat_sim {σ σ' : Type} (cb : σ → Idx → Qi → Nat → Qi × σ)
    (cb' : σ' → Idx → Qi → Nat → Qi × σ') (g : σ' → σ)
    (hcb : ∀ s' c n i, (cb' s' c n i).1 = (cb (g s') c n i).1 ∧
      g (cb' s' c n i).2 = (cb (g s') c n i).2) :
    ∀ (t : List Entry) (cell : Idx) (n : Qi) (s' : σ'),
      foldFlat cb cell t n (g s') = ((foldFlat cb' cell t n s').1, g (foldFlat cb' cell t n s').2) := by
  intro t
  induction t with
  | nil => intro cell n s'; rfl
  | cons e t' ih =>
    intro cell n s'
    rw [foldFlat_cons, foldFlat_cons]
    rw [← (hcb s' cell n e.2).1, ← (hcb s' cell n e.2).2]
    exact ih cell _ _

theorem test_children_sim {σ σ' : Type} (rec : List Entry → Idx → Qi → σ → Except Unit (Qi × σ))
    (rec' : List Entry → Idx → Qi → σ' → Except Unit (Qi × σ')) (g : σ' → σ)
    (hrec : ∀ t c (n : Qi) s', rec t c n (g s') =
      (rec' t c n s').map (fun r => (r.1, g r.2))) :
    ∀ (order : List Nat) (slices : List (List Entry)) (cells : List Idx) (n : Qi) (s' : σ'),
      test_children rec order slices cells n (g s') =
        (test_children rec' order slices cells n s').map (fun r => (r.1, g r.2)) := by
  intro order
  induction order with
  | nil => intro slices cells n s'; rfl
  | cons i rest ih =>
    intro slices cells n s'
    rw [test_children_cons, test_children_cons]
    cases hr : rec' (slices.getD i []) (cells.getD i []) n s' with
    | error e =>
      rw [hrec _ _ _ _, hr]
      rfl
    | ok r =>
      rw [hrec _ _ _ _, hr]
      simp only [Except.map]
      exact ih slices cells r.1 r.2

theorem test_impl_sim {σ σ' : Type} (b : Nat) (st : Idx → Qi → Bool) (ord : Idx → List Nat)
    (maxDepth : Option Nat) (cb : σ → Idx → Qi → Nat → Qi × σ)
    (cb' : σ' → Idx → Qi → Nat → Qi × σ') (g : σ' → σ)
    (hcb : ∀ s' c n i, (cb' s' c n i).1 = (cb (g s') c n i).1 ∧
      g (cb' s' c n i).2 = (cb (g s') c n i).2) :
    ∀ (fuel : Nat) (t : List Entry) (cell : Idx) (n : Qi) (s' : σ'),
      test_impl b st ord maxDepth cb fuel t cell n (g s') =
        (test_impl b st ord maxDepth cb' fuel t cell n s').map (fun r => (r.1, g r.2)) := by
  intro fuel
  induction fuel with
  | zero =>
    intro t cell n s'
    cases t with
    | nil => rw [test_impl_nil, test_impl_nil]; rfl
    | cons e t' =>
      rw [test_impl_zero, test_impl_zero]
      by_cases hst : (! st cell n) = true
      · rw [if_pos hst, if_pos hst]
        rfl
      · rw [if_neg hst, if_neg hst]
        by_cases hviol : (idxLtB e.1 cell || ! overlapsB cell ((e :: t').getLastD e).1) = true
        · rw [if_pos hviol, if_pos hviol]
          rfl
        · rw [if_neg hviol, if_neg hviol]
          rw [foldFlat_sim cb cb' g hcb]
          rfl
  | succ fuel ih =>
    intro t cell n s'
    cases t with
    | nil => rw [test_impl_nil, test_impl_nil]; rfl
    | cons e t' =>
      rw [test_impl_succ, test_impl_succ]
      by_cases hst : (! st cell n) = true
      · rw [if_pos hst, if_pos hst]
        rfl
      · rw [if_neg hst, if_neg hst]
        by_cases hviol : (idxLtB e.1 cell || ! overlapsB cell ((e :: t').getLastD e).1) = true
        · rw [if_pos hviol, if_pos hviol]
          rfl
        · rw [if_neg hviol, if_neg hviol]
          split
          · rw [foldFlat_sim cb cb' g hcb]
            rfl
          · rw [foldFlat_sim cb cb' g hcb]
            exact test_children_sim _ _ g (fun t0 c0 n0 s0 => ih t0 c0 n0 s0) ..

theorem foldFlat_trace {σ' α : Type} (cb' : σ' → Idx → Qi → Nat → Qi × σ')
    (π : σ' → List α) (Q : α → Idx → Nat → Prop)
    (hstep : ∀ s c n i, ∃ ext, π ((cb' s c n i).2) = π s ++ ext ∧ ∀ x ∈ ext, Q x c i) :
    ∀ (t : List Entry) (cell : Idx) (n : Qi) (s' : σ'),
      ∀ x ∈ π (foldFlat cb' cell t n s').2,
        x ∈ π s' ∨ ∃ i, Q x cell i ∧ i ∈ t.map Prod.snd := by
  intro t
  induction t with
  | nil => intro cell n s' x hx; exact Or.inl hx
  | cons e t' ih =>
    intro cell n s' x hx
    rw [foldFlat_cons] at hx
    rcases ih cell _ _ x hx with h | ⟨i, hQ, hi⟩
    · obtain ⟨ext, hext, hQext⟩ := hstep s' cell n e.2
      rw [hext] at h
      rcases List.mem_append.mp h with h' | h'
      · exact Or.inl h'
      · exact Or.inr ⟨e.2, hQext x h', by simp⟩
    · exact Or.inr ⟨i, hQ, by simp [hi]⟩

theorem test_children_trace {σ' α : Type}
    (rec' : List Entry → Idx → Qi → σ' → Except Unit (Qi × σ'))
    (π : σ' → List α) (P : Nat → α → Prop) :
    ∀ (order : List Nat) (slices : List (List Entry)) (cells : List Idx),
      (∀ k ∈ order, ∀ (n : Qi) (s' : σ') (n' : Qi) (s'' : σ'),
        rec' (slices.getD k []) (cells.getD k []) n s' = .ok (n', s'') →
        ∀ x ∈ π s'', x ∈ π s' ∨ P k x) →
      ∀ (n : Qi) (s' : σ') (n' : Qi) (s'' : σ'),
        test_children rec' order slices cells n s' = .ok (n', s'') →
        ∀ x ∈ π s'', x ∈ π s' ∨ ∃ k ∈ order, P k x := by
  intro order
  induction order with
  | nil =>
    intro slices cells _ n s' n' s'' hrun x hx
    rw [test_children_nil] at hrun
    have h2 : s'' = s' := (congrArg Prod.snd (Except.ok.inj hrun)).symm
    exact Or.inl (h2 ▸ hx)
  | cons k rest ih =>
    intro slices cells hrec n s' n' s'' hrun x hx
    rw [test_children_cons] at hrun
    cases hr : rec' (slices.getD k []) (cells.getD k []) n s' with
    | error e => rw [hr] at hrun; exact absurd hrun (by simp)
    | ok r =>
      rw [hr] at hrun
      rcases ih slices cells (fun k' hk' => hrec k' (List.mem_cons_of_mem k hk'))
          r.1 r.2 n' s'' hrun x hx with h | ⟨k', hk', hP⟩
      · rcases hrec k (by simp) n s' r.1 r.2 hr x h with h' | hP
        · exact Or.inl h'
        · exact Or.inr ⟨k, by simp, hP⟩
      · exact Or.inr ⟨k', List.mem_cons_of_mem k hk', hP⟩

/-- Every element the instrumented state gains during a kernel run stems from
a callback invocation at a visited entry: an id drawn from the slice, at a
cell below the current cell respecting `max_depth`. -/
theorem test_impl_trace {σ' α : Type} (b : Nat) (st : Idx → Qi → Bool) (ord : Idx → List Nat)
    (maxDepth : Option Nat) (cb' : σ' → Idx → Qi → Nat → Qi × σ')
    (π : σ' → List α) (Q : α → Idx → Nat → Prop)
    (hstep : ∀ s c n i, ∃ ext, π ((cb' s c n i).2) = π s ++ ext ∧ ∀ x ∈ ext, Q x c i) :
    ∀ (fuel : Nat) (t : List Entry) (cell : Idx) (n : Qi) (s' : σ') (n' : Qi) (s'' : σ'),
      test_impl b st ord maxDepth cb' fuel t cell n s' = .ok (n', s'') →
      ∀ x ∈ π s'', x ∈ π s' ∨ ∃ c i, Q x c i ∧ i ∈ t.map Prod.snd ∧ isAncB cell c = true ∧
        (∀ dd, maxDepth = some dd → cell.length ≤ dd → c.length ≤ dd) := by
  intro fuel
  induction fuel with
  | zero =>
    intro t cell n s' n' s'' hrun x hx
    cases t with
    | nil =>
      rw [test_impl_nil] at hrun
      have h2 : s'' = s' := (congrArg Prod.snd (Except.ok.inj hrun)).symm
      exact Or.inl (h2 ▸ hx)
    | cons e t' =>
      rw [test_impl_zero] at hrun
      split at hrun
      · have h2 : s'' = s' := (congrArg Prod.snd (Except.ok.inj hrun)).symm
        exact Or.inl (h2 ▸ hx)
      · split at hrun
        · exact absurd hrun (by simp)
        · have h2 : s'' = (foldFlat cb' cell (e :: t') n s').2 :=
            (congrArg Prod.snd (Except.ok.inj hrun)).symm
          rcases foldFlat_trace cb' π Q hstep (e :: t') cell n s' x (h2 ▸ hx) with h | ⟨i, hQ, hi⟩
          · exact Or.inl h
          · exact Or.inr ⟨cell, i, hQ, hi, isAncB_refl cell, fun dd _ hdd => hdd⟩
  | succ fuel ih =>
    intro t cell n s' n' s'' hrun x hx
    cases t with
    | nil =>
      rw [test_impl_nil] at hrun
      have h2 : s'' = s' := (congrArg Prod.snd (Except.ok.inj hrun)).symm
      exact Or.inl (h2 ▸ hx)
    | cons e t' =>
      rw [test_impl_succ] at hrun
      split at hrun
      · have h2 : s'' = s' := (congrArg Prod.snd (Except.ok.inj hrun)).symm
        exact Or.inl (h2 ▸ hx)
      · split at hrun
        · exact absurd hrun (by simp)
        · split at hrun
          · rename_i hdep
            have h2 : s'' = (foldFlat cb' cell (e :: t') n s').2 :=
              (congrArg Prod.snd (Except.ok.inj hrun)).symm
            rcases foldFlat_trace cb' π Q hstep (e :: t') cell n s' x (h2 ▸ hx) with h | ⟨i, hQ, hi⟩
            · exact Or.inl h
            · exact Or.inr ⟨cell, i, hQ, hi, isAncB_refl cell, fun dd _ hdd => hdd⟩
          · rename_i hdep
            have hP := test_children_trace (test_impl b st ord maxDepth cb' fuel) π
              (fun k x => ∃ c i, Q x c i ∧
                i ∈ ((scanSplit ((List.range b).map (fun j => cell ++ [j])) (e :: t')).tail.getD k []).map Prod.snd ∧
                isAncB (((List.range b).map (fun j => cell ++ [j])).getD k []) c = true ∧
                (∀ dd, maxDepth = some dd →
                  (((List.range b).map (fun j => cell ++ [j])).getD k []).length ≤ dd →
                  c.length ≤ dd))
              (ord cell) _ _
              (fun k _ n0 s0 n1 s1 hr x0 hx0 => ih _ _ n0 s0 n1 s1 hr x0 hx0)
              _ _ _ _ hrun x hx
            rcases hP with h | ⟨k, _, c, i, hQ, hi, hanc, hdd⟩
            · rcases foldFlat_trace cb' π Q hstep
                ((scanSplit ((List.range b).map (fun j => cell ++ [j])) (e :: t')).headD [])
                cell n s' x h with h' | ⟨i, hQ, hi⟩
              · exact Or.inl h'
              · refine Or.inr ⟨cell, i, hQ, ?_, isAncB_refl cell, fun dd _ hdd => hdd⟩
                have hsub := scanSplit_headD_sublist
                  ((List.range b).map (fun j => cell ++ [j])) (e :: t')
                obtain ⟨e', he', he2⟩ := List.mem_map.mp hi
                exact List.mem_map.mpr ⟨e', hsub.mem he', he2⟩
            · -- the invocation happened inside child k
              by_cases hkb : k < b
              · have hcells : ((List.range b).map (fun j => cell ++ [j])).getD k [] = cell ++ [k] :=
                  getD_map_range _ _ hkb
                rw [hcells] at hanc hdd
                have hsub := scanSplit_tail_getD_sublist
                  ((List.range b).map (fun j => cell ++ [j])) (e :: t') k
                obtain ⟨e', he', he2⟩ := List.mem_map.mp hi
                refine Or.inr ⟨c, i, hQ, List.mem_map.mpr ⟨e', hsub.mem he', he2⟩,
                  isAncB_trans (isAncB_append_right cell [k]) hanc, ?_⟩
                intro dd hmd hdd'
                refine hdd dd hmd ?_
                rw [hmd] at hdep
                simp only [decide_eq_true_eq] at hdep
                simp only [List.length_append, List.length_cons, List.length_nil]
                omega
              · have hlen : ((scanSplit ((List.range b).map (fun j => cell ++ [j]))
                    (e :: t')).tail).length ≤ k := by
                  rw [scanSplit_tail_length]
                  simpa using (by omega : b ≤ k)
                rw [List.getD_eq_default _ _ hlen] at hi
                simp at hi

theorem foldFlat_logCb_log {σ : Type} (cb : σ → Idx → Qi → Nat → Qi × σ) :
    ∀ (t : List Entry) (cell : Idx) (n : Qi) (s : σ) (log : List (Idx × Nat)),
      (foldFlat (logCb cb) cell t n (s, log)).2.2 = log ++ t.map (fun e => (cell, e.2)) := by
  intro t
  induction t with
  | nil => intro cell n s log; simp [foldFlat_nil]
  | cons e t' ih =>
    intro cell n s log
    rw [foldFlat_cons]
    show (foldFlat (logCb cb) cell t' _ ((cb s cell n e.2).2, log ++ [(cell, e.2)])).2.2 = _
    rw [ih]
    simp

/-- C9: with `max_depth = some d` and a start cell at depth ≤ d (as at the
root), a kernel run never invokes the callback on a cell of depth > d — every
logged invocation is at depth ≤ d and on an id of the slice; moreover once the
current cell's depth reaches `d` (and `should_test` passes) the kernel invokes
the callback on every entry of the slice at that cell and returns the folded
result without subdividing.  `test`, `test_box`, `test_ray` and `pick` all run
this kernel from the depth-0 root cell. -/
theorem C9_max_depth_honoured {σ : Type} (b : Nat) (st : Idx → Qi → Bool)
    (ord : Idx → List Nat) (d : Nat) (cb : σ → Idx → Qi → Nat → Qi × σ)
    (fuel : Nat) (t : List Entry) (cell : Idx) (n : Qi) (s : σ) (log : List (Idx × Nat))
    (n' : Qi) (s' : σ) (log' : List (Idx × Nat))
    (hcell : cell.length ≤ d)
    (hrun : test_impl b st ord (some d) (logCb cb) fuel t cell n (s, log) =
      .ok (n', (s', log'))) :
    (∀ x ∈ log', x ∈ log ∨ (x.1.length ≤ d ∧ x.2 ∈ t.map Prod.snd)) ∧
    (st cell n = true → d ≤ cell.length → log' = log ++ t.map (fun e => (cell, e.2))) := by
  constructor
  · intro x hx
    have htr := test_impl_trace b st ord (some d) (logCb cb) (fun s => s.2)
      (fun x c i => x = (c, i))
      (fun s c n0 i => ⟨[(c, i)], by simp [logCb], by simp⟩)
      fuel t cell n (s, log) n' (s', log') hrun x hx
    rcases htr with h | ⟨c, i, rfl, hi, _, hdd⟩
    · exact Or.inl h
    · exact Or.inr ⟨hdd d rfl hcell, hi⟩
  · intro hst hd
    cases t with
    | nil =>
      rw [test_impl_nil] at hrun
      have h2 := (congrArg Prod.snd (congrArg Prod.snd (Except.ok.inj hrun))).symm
      simpa using h2
    | cons e t' =>
      cases fuel with
      | zero =>
        rw [test_impl_zero] at hrun
        split at hrun
        · rename_i hcond
          rw [hst] at hcond
          simp at hcond
        · split at hrun
          · exact absurd hrun (by simp)
          · have h2 : log' = (foldFlat (logCb cb) cell (e :: t') n (s, log)).2.2 :=
              (congrArg Prod.snd (congrArg Prod.snd (Except.ok.inj hrun))).symm
            rw [h2, foldFlat_logCb_log]
      | succ fuel =>
        rw [test_impl_succ] at hrun
        split at hrun
        · rename_i hcond
          rw [hst] at hcond
          simp at hcond
        · split at hrun
          · exact absurd hrun (by simp)
          · split at hrun
            · have h2 : log' = (foldFlat (logCb cb) cell (e :: t') n (s, log)).2.2 :=
                (congrArg Prod.snd (congrArg Prod.snd (Except.ok.inj hrun))).symm
              rw [h2, foldFlat_logCb_log]
            · rename_i hcond
              exfalso
              simp only [decide_eq_true_eq] at hcond
              exact hcond hd

/-- C9 witness: a two-entry slice with `max_depth = 1`; both callback
invocations happen at the depth-1 cell `[0]`. -/
theorem C9_witness :
    (List.length ([] : Idx) ≤ 1 ∧
      test_impl 2 (fun _ _ => true) (fun _ => [0, 1]) (some 1)
        (logCb (σ := Unit) (fun s _ n _ => (n, s))) 2 [([0], 3), ([0, 0], 4)] [] ⊤ ((), []) =
        .ok (⊤, ((), [([0], 3), ([0], 4)]))) ∧
    ((∀ x ∈ [(([0] : Idx), 3), ([0], 4)], x ∈ ([] : List (Idx × Nat)) ∨
        (x.1.length ≤ 1 ∧ x.2 ∈ [([0], 3), ([0, 0], 4)].map Prod.snd)) ∧
      ((fun (_ : Idx) (_ : Qi) => true) [] ⊤ = true → 1 ≤ List.length ([] : Idx) →
        [(([0] : Idx), 3), ([0], 4)] = ([] : List (Idx × Nat)) ++
          [([0], 3), ([0, 0], 4)].map (fun e => (([] : Idx), e.2)))) :=
  ⟨⟨by decide, by rfl⟩,
    C9_max_depth_honoured 2 (fun _ _ => true) (fun _ => [0, 1]) 1
      (fun s _ n _ => (n, s)) 2 [([0], 3), ([0, 0], 4)] [] ⊤ () [] ⊤ ()
      [([0], 3), ([0], 4)] (by decide) (by rfl)⟩

/-- C5: during a single `pick` run — which starts from a freshly cleared
`processed` set — every id is handed to `get_dist` at most once (the call log
of the instrumented run has no duplicates, each call's id comes from the
tree, and the processed set is exactly the set of ids called); an id already
in `processed` makes the callback return `+∞` with the state — including the
call log — unchanged, i.e. without calling `get_dist`; and the instrumented
run computes exactly `pick`'s result. -/
theorem C5_get_dist_at_most_once (b MD : Nat) (st : Idx → Qi → Bool) (ord : Idx → List Nat)
    (maxDist : Qi) (maxDepth : Option Nat) (g : Nat → Qi) (tree : List Entry)
    (n' : Qi) (proc : List Nat) (res : Option Nat) (calls : List Nat)
    (hrun : test_impl b st ord maxDepth (pickCbI g) MD tree [] maxDist (([], none), []) =
      .ok (n', ((proc, res), calls))) :
    calls.Nodup ∧ proc = calls.reverse ∧
    (∀ i ∈ calls, i ∈ tree.map Prod.snd) ∧
    (∀ (s : (List Nat × Option Nat) × List Nat) (c : Idx) (n : Qi) (i : Nat),
      i ∈ s.1.1 → pickCbI g s c n i = (⊤, s)) ∧
    pickRun b MD st ord maxDist maxDepth (fun _ _ i => g i) tree =
      .ok (res.map (fun i => (n', i))) := by
  have hinv := test_impl_inv b st ord maxDepth (pickCbI g)
    (fun s _ => s.1.1 = s.2.reverse ∧ s.2.Nodup) ?_ MD tree [] maxDist (([], none), [])
    n' ((proc, res), calls) (by simp) hrun
  · refine ⟨hinv.2, hinv.1, ?_, ?_, ?_⟩
    · intro i hi
      have htr := test_impl_trace b st ord maxDepth (pickCbI g) (fun s => s.2)
        (fun x _ j => x = j) ?_ MD tree [] maxDist (([], none), []) n' ((proc, res), calls)
        hrun i hi
      · rcases htr with h | ⟨c, j, rfl, hj, _, _⟩
        · simp at h
        · exact hj
      · intro s c n i0
        unfold pickCbI
        by_cases hmem : i0 ∈ s.1.1
        · rw [if_pos hmem]
          exact ⟨[], by simp, by simp⟩
        · rw [if_neg hmem]
          exact ⟨[i0], by simp, by simp⟩
    · intro s c n i hmem
      unfold pickCbI
      rw [if_pos hmem]
    · unfold pickRun
      have hsim := test_impl_sim b st ord maxDepth (pickCb (fun _ _ i => g i)) (pickCbI g)
        Prod.fst ?_ MD tree [] maxDist (([], none), [])
      · rw [show (([], none) : List Nat × Option Nat) =
          ((((([] : List Nat), (none : Option Nat)), ([] : List Nat)) :
            (List Nat × Option Nat) × List Nat)).1 from rfl]
        rw [hsim, hrun]
        rfl
      · intro s' c n i
        unfold pickCb pickCbI
        by_cases hmem : i ∈ s'.1.1
        · rw [if_pos hmem, if_pos hmem]
          exact ⟨rfl, rfl⟩
        · rw [if_neg hmem, if_neg hmem]
          exact ⟨rfl, rfl⟩
  · intro s c n i ⟨h1, h2⟩
    unfold pickCbI
    by_cases hmem : i ∈ s.1.1
    · rw [if_pos hmem]
      exact ⟨h1, h2⟩
    · rw [if_neg hmem]
      refine ⟨by simp [h1], ?_⟩
      rw [List.nodup_append]
      refine ⟨h2, by simp, ?_⟩
      intro a ha hb
      rcases List.mem_singleton.mp hb with rfl
      exact hmem (by rw [h1]; exact List.mem_reverse.mpr ha)

/-- C5 witness: an object appearing at two cells is handed to `get_dist`
exactly once. -/
theorem C5_witness :
    (test_impl 2 (fun _ _ => true) (fun _ => [0, 1]) none
        (pickCbI (fun i => if i = 3 then ((2 : ℚ) : Qi) else ((7 : ℚ) : Qi))) 3
        [([0], 3), ([0, 1], 3)] [] ((10 : ℚ) : Qi) (([], none), []) =
      .ok (((2 : ℚ) : Qi), (([3], some 3), [3]))) ∧
    ([3].Nodup ∧ [3] = [3].reverse ∧
      (∀ i ∈ [3], i ∈ [(([0] : Idx), 3), ([0, 1], 3)].map Prod.snd) ∧
      (∀ (s : (List Nat × Option Nat) × List Nat) (c : Idx) (n : Qi) (i : Nat),
        i ∈ s.1.1 → pickCbI (fun i => if i = 3 then ((2 : ℚ) : Qi) else ((7 : ℚ) : Qi)) s c n i =
          (⊤, s)) ∧
      pickRun 2 3 (fun _ _ => true) (fun _ => [0, 1]) ((10 : ℚ) : Qi) none
        (fun _ _ i => if i = 3 then ((2 : ℚ) : Qi) else ((7 : ℚ) : Qi))
        [([0], 3), ([0, 1], 3)] =
        .ok ((some 3).map (fun i => (((2 : ℚ) : Qi), i)))) :=
  ⟨by rfl,
    C5_get_dist_at_most_once 2 3 (fun _ _ => true) (fun _ => [0, 1]) ((10 : ℚ) : Qi) none
      (fun i => if i = 3 then ((2 : ℚ) : Qi) else ((7 : ℚ) : Qi))
      [([0], 3), ([0, 1], 3)] ((2 : ℚ) : Qi) [3] (some 3) [3] (by rfl)⟩

theorem mem_extendInvalid {β : Type} {contains : β → Bool} {objs : List (β × Nat)}
    {o : β × Nat} (ho : o ∈ objs) (hc : contains o.1 = false) :
    o.2 ∈ extendInvalid contains objs := by
  induction objs with
  | nil => simp at ho
  | cons a rest ih =>
    unfold extendInvalid
    rw [List.foldr_cons]
    rcases List.mem_cons.mp ho with rfl | ho'
    · rw [if_neg (by simp [hc])]
      simp
    · by_cases ha : contains a.1 = true
      · rw [if_pos ha]
        exact ih ho'
      · rw [if_neg ha]
        exact List.mem_cons_of_mem _ (ih ho')

/-- C8: an object whose bounds fail the `system_bounds.contains` test pushes
its id onto `invalid` and contributes no `(cell, id)` entry (the tree gains
exactly the accepted objects' entries); consequently an id absent from the
tree appears in no `scan_filtered`/`par_scan_filtered` pair and in no `test`
result; no exception is raised (`extend` is total and the queries return
`.ok` on the sorted tree); and `invalid` is cleared at the start of each
scan/par_scan. -/
theorem C8_invalid_isolation {β : Type} (L : Layer) (contains : β → Bool)
    (inds : β → List Idx) (objs : List (β × Nat)) (f : Nat → Nat → Bool) (threads : Nat)
    (b MD : Nat) (st : Idx → Qi → Bool) (ord : Idx → List Nat) (maxDepth : Option Nat)
    (id : Nat) :
    ((L.extend contains inds objs).invalid = L.invalid ++ extendInvalid contains objs) ∧
    ((L.extend contains inds objs).tree = L.tree ++ extendEntries contains inds objs) ∧
    (∀ o ∈ objs, contains o.1 = false → o.2 ∈ (L.extend contains inds objs).invalid) ∧
    (id ∉ L.tree.map Prod.snd →
      (∀ p ∈ (L.scan_filtered f).2, p.1 ≠ id ∧ p.2 ≠ id) ∧
      (∀ p ∈ (L.par_scan_filtered threads f).2, p.1 ≠ id ∧ p.2 ≠ id) ∧
      (∀ out, L.test b MD st ord maxDepth = .ok out → id ∉ out)) ∧
    ((L.scan_filtered f).1.invalid = [] ∧ (L.par_scan_filtered threads f).1.invalid = []) := by
  obtain ⟨he1, he2, he3, he4⟩ := extend_spec contains inds objs L
  refine ⟨he2, he1, ?_, ?_, rfl, rfl⟩
  · intro o ho hc
    rw [he2]
    exact List.mem_append_right _ (mem_extendInvalid ho hc)
  · intro hid
    have hids : ∀ j, (∃ s ∈ L.sort.tree, s.2 = j) → j ∈ L.tree.map Prod.snd := by
      intro j ⟨s, hs, hsj⟩
      exact List.mem_map.mpr ⟨s, sort_tree_mem hs, hsj⟩
    refine ⟨?_, ?_, ?_⟩
    · intro p hp
      unfold Layer.scan_filtered at hp
      simp only at hp
      have hmem := sortDedup_mem.mp hp
      have := scanGo_ids f L.sort.tree [] [] L.sort.tree (by simp) (fun e he => he) p hmem
      rcases this with h | ⟨_, h1, h2⟩
      · simp at h
      · exact ⟨fun hcon => hid (hcon ▸ hids p.1 h1), fun hcon => hid (hcon ▸ hids p.2 h2)⟩
    · intro p hp
      unfold Layer.par_scan_filtered at hp
      simp only at hp
      have hmem := sortDedup_mem.mp hp
      obtain ⟨_, h1, h2⟩ := par_scan_impl_mem L.sort.min_depth f threads L.sort.tree p hmem
      exact ⟨fun hcon => hid (hcon ▸ hids p.1 h1), fun hcon => hid (hcon ▸ hids p.2 h2)⟩
    · intro out hout hmem
      unfold Layer.test testRun at hout
      cases hrun : test_impl b st ord maxDepth
          (fun (s : List Nat) _c n i => (n, s ++ [i])) MD L.sort.tree [] ⊤ [] with
      | error e =>
        rw [hrun] at hout
        exact absurd hout (by simp [Except.map])
      | ok r =>
        rw [hrun] at hout
        simp only [Except.map] at hout
        have hout2 := Except.ok.inj hout
        rw [← hout2] at hmem
        have hmem2 := sortDedup_mem.mp hmem
        have htr := test_impl_trace b st ord maxDepth
          (fun (s : List Nat) _c n i => (n, s ++ [i])) (fun s => s) (fun x _ j => x = j)
          (fun s c n i => ⟨[i], by simp, by simp⟩) MD L.sort.tree [] ⊤ [] r.1 r.2 hrun
          id hmem2
        rcases htr with h | ⟨c, j, hxj, hj, _, _⟩
        · simp at h
        · subst hxj
          obtain ⟨e', he', he2⟩ := List.mem_map.mp hj
          exact hid (hids id ⟨e', he', he2⟩)

/-- C8 witness: a rejected object (bounds outside the system bounds) lands in
`invalid`, appears in no scan pair, and `invalid` is cleared by the scan. -/
theorem C8_witness :
    ((Layer.mk 0 [([0], 1)] true [] [] [] []).extend (fun b => decide (b < 10))
        (fun b => [[b]]) [((12 : Nat), (9 : Nat))]).invalid =
      (Layer.mk 0 [([0], 1)] true [] [] [] []).invalid ++
        extendInvalid (fun b => decide (b < 10)) [((12 : Nat), (9 : Nat))] ∧
    (9 : Nat) ∈ ((Layer.mk 0 [([0], 1)] true [] [] [] []).extend (fun b => decide (b < 10))
        (fun b => [[b]]) [((12 : Nat), (9 : Nat))]).invalid ∧
    (∀ p ∈ ((Layer.mk 0 [([0], 1)] true [] [] [] []).scan_filtered (fun _ _ => true)).2,
      p.1 ≠ 9 ∧ p.2 ≠ 9) ∧
    ((Layer.mk 0 [([0], 1)] true [] [] [] []).scan_filtered (fun _ _ => true)).1.invalid = [] :=
  ⟨(C8_invalid_isolation (Layer.mk 0 [([0], 1)] true [] [] [] []) (fun b => decide (b < 10))
      (fun b => [[b]]) [((12 : Nat), (9 : Nat))] (fun _ _ => true) 4 2 3 (fun _ _ => true)
      (fun _ => [0, 1]) none 9).1,
    (C8_invalid_isolation (Layer.mk 0 [([0], 1)] true [] [] [] []) (fun b => decide (b < 10))
      (fun b => [[b]]) [((12 : Nat), (9 : Nat))] (fun _ _ => true) 4 2 3 (fun _ _ => true)
      (fun _ => [0, 1]) none 9).2.2.1 (12, 9) (by decide) (by decide),
    ((C8_invalid_isolation (Layer.mk 0 [([0], 1)] true [] [] [] []) (fun b => decide (b < 10))
      (fun b => [[b]]) [((12 : Nat), (9 : Nat))] (fun _ _ => true) 4 2 3 (fun _ _ => true)
      (fun _ => [0, 1]) none 9).2.2.2.1 (by decide)).1,
    (C8_invalid_isolation (Layer.mk 0 [([0], 1)] true [] [] [] []) (fun b => decide (b < 10))
      (fun b => [[b]]) [((12 : Nat), (9 : Nat))] (fun _ _ => true) 4 2 3 (fun _ _ => true)
      (fun _ => [0, 1]) none 9).2.2.2.2.1⟩

theorem scanSplit_mem_decomp (cs : List Idx) (t : List Entry) {e : Entry} (he : e ∈ t) :
    e ∈ (scanSplit cs t).headD [] ∨
      ∃ k, k < cs.length ∧ e ∈ (scanSplit cs t).tail.getD k [] := by
  have hj := scanSplit_join cs t
  cases hs : scanSplit cs t with
  | nil =>
    have := scanSplit_length cs t
    rw [hs] at this
    simp at this
  | cons p rest =>
    rw [hs] at hj
    rw [List.flatten_cons] at hj
    rw [← hj] at he
    rcases List.mem_append.mp he with h | h
    · exact Or.inl h
    · rw [List.mem_flatten] at h
      obtain ⟨piece, hpiece, hep⟩ := h
      obtain ⟨k, hk, hgk⟩ := List.mem_iff_getElem.mp hpiece
      refine Or.inr ⟨k, ?_, ?_⟩
      · have hlen := scanSplit_tail_length cs t
        rw [hs] at hlen
        simp only [List.tail_cons] at hlen
        omega
      · simp only [List.tail_cons]
        rw [List.getD_eq_getElem _ _ hk, hgk]
        exact hep

theorem foldFlat_cover {σ' : Type} (cb' : σ' → Idx → Qi → Nat → Qi × σ')
    (π : σ' → List Nat)
    (hstep : ∀ s c n i, (∀ j ∈ π s, j ∈ π ((cb' s c n i).2)) ∧ i ∈ π ((cb' s c n i).2)) :
    ∀ (t : List Entry) (cell : Idx) (n : Qi) (s' : σ'),
      (∀ j ∈ π s', j ∈ π (foldFlat cb' cell t n s').2) ∧
      (∀ e ∈ t, e.2 ∈ π (foldFlat cb' cell t n s').2) := by
  intro t
  induction t with
  | nil =>
    intro cell n s'
    exact ⟨fun j hj => hj, fun e he => absurd he (by simp)⟩
  | cons e t' ih =>
    intro cell n s'
    rw [foldFlat_cons]
    obtain ⟨hmono, hin⟩ := hstep s' cell n e.2
    refine ⟨fun j hj => (ih cell _ _).1 j (hmono j hj), ?_⟩
    intro e' he'
    rcases List.mem_cons.mp he' with rfl | he''
    · exact (ih cell _ _).1 e'.2 hin
    · exact (ih cell _ _).2 e' he''

theorem test_children_cover {σ' : Type}
    (rec' : List Entry → Idx → Qi → σ' → Except Unit (Qi × σ')) (π : σ' → List Nat) :
    ∀ (order : List Nat) (slices : List (List Entry)) (cells : List Idx),
      (∀ k ∈ order, ∀ (n : Qi) (s' : σ') (n' : Qi) (s'' : σ'),
        rec' (slices.getD k []) (cells.getD k []) n s' = .ok (n', s'') →
        (∀ j ∈ π s', j ∈ π s'') ∧ (∀ e ∈ slices.getD k [], e.2 ∈ π s'')) →
      ∀ (n : Qi) (s' : σ') (n' : Qi) (s'' : σ'),
        test_children rec' order slices cells n s' = .ok (n', s'') →
        (∀ j ∈ π s', j ∈ π s'') ∧ (∀ k ∈ order, ∀ e ∈ slices.getD k [], e.2 ∈ π s'') := by
  intro order
  induction order with
  | nil =>
    intro slices cells _ n s' n' s'' hrun
    rw [test_children_nil] at hrun
    have h2 : s'' = s' := (congrArg Prod.snd (Except.ok.inj hrun)).symm
    subst h2
    exact ⟨fun j hj => hj, fun k hk => absurd hk (by simp)⟩
  | cons k rest ih =>
    intro slices cells hrec n s' n' s'' hrun
    rw [test_children_cons] at hrun
    cases hr : rec' (slices.getD k []) (cells.getD k []) n s' with
    | error e => rw [hr] at hrun; exact absurd hrun (by simp)
    | ok r =>
      rw [hr] at hrun
      obtain ⟨hmono1, hcov1⟩ := hrec k (by simp) n s' r.1 r.2 hr
      obtain ⟨hmono2, hcov2⟩ := ih slices cells
        (fun k' hk' => hrec k' (List.mem_cons_of_mem k hk')) r.1 r.2 n' s'' hrun
      refine ⟨fun j hj => hmono2 j (hmono1 j hj), ?_⟩
      intro k' hk' e he
      rcases List.mem_cons.mp hk' with rfl | hk''
      · exact hmono2 e.2 (hcov1 e he)
      · exact hcov2 k' hk'' e he

/-- With a non-pruning geometry and a `test_order` that visits every child,
a successful kernel run hands every entry of the slice to the callback: every
slice id ends up in the (monotonically growing) instrumented set. -/
theorem test_impl_cover {σ' : Type} (b : Nat) (st : Idx → Qi → Bool) (ord : Idx → List Nat)
    (maxDepth : Option Nat) (cb' : σ' → Idx → Qi → Nat → Qi × σ') (π : σ' → List Nat)
    (hstep : ∀ s c n i, (∀ j ∈ π s, j ∈ π ((cb' s c n i).2)) ∧ i ∈ π ((cb' s c n i).2))
    (hst : ∀ c n, st c n = true) (hord : ∀ c k, k < b → k ∈ ord c) :
    ∀ (fuel : Nat) (t : List Entry) (cell : Idx) (n : Qi) (s' : σ') (n' : Qi) (s'' : σ'),
      test_impl b st ord maxDepth cb' fuel t cell n s' = .ok (n', s'') →
      (∀ j ∈ π s', j ∈ π s'') ∧ (∀ e ∈ t, e.2 ∈ π s'') := by
  intro fuel
  induction fuel with
  | zero =>
    intro t cell n s' n' s'' hrun
    cases t with
    | nil =>
      rw [test_impl_nil] at hrun
      have h2 : s'' = s' := (congrArg Prod.snd (Except.ok.inj hrun)).symm
      subst h2
      exact ⟨fun j hj => hj, fun e he => absurd he (by simp)⟩
    | cons e t' =>
      rw [test_impl_zero] at hrun
      split at hrun
      · rename_i hcond
        rw [hst cell n] at hcond
        simp at hcond
      · split at hrun
        · exact absurd hrun (by simp)
        · have h2 : s'' = (foldFlat cb' cell (e :: t') n s').2 :=
            (congrArg Prod.snd (Except.ok.inj hrun)).symm
          subst h2
          exact ⟨(foldFlat_cover cb' π hstep (e :: t') cell n s').1,
            (foldFlat_cover cb' π hstep (e :: t') cell n s').2⟩
  | succ fuel ih =>
    intro t cell n s' n' s'' hrun
    cases t with
    | nil =>
      rw [test_impl_nil] at hrun
      have h2 : s'' = s' := (congrArg Prod.snd (Except.ok.inj hrun)).symm
      subst h2
      exact ⟨fun j hj => hj, fun e he => absurd he (by simp)⟩
    | cons e t' =>
      rw [test_impl_succ] at hrun
      split at hrun
      · rename_i hcond
        rw [hst cell n] at hcond
        simp at hcond
      · split at hrun
        · exact absurd hrun (by simp)
        · split at hrun
          · have h2 : s'' = (foldFlat cb' cell (e :: t') n s').2 :=
              (congrArg Prod.snd (Except.ok.inj hrun)).symm
            subst h2
            exact ⟨(foldFlat_cover cb' π hstep (e :: t') cell n s').1,
              (foldFlat_cover cb' π hstep (e :: t') cell n s').2⟩
          · obtain ⟨hmono2, hcov2⟩ := test_children_cover
              (test_impl b st ord maxDepth cb' fuel) π (ord cell) _ _
              (fun k _ n0 s0 n1 s1 hr => ih _ _ n0 s0 n1 s1 hr) _ _ _ _ hrun
            have hflat := foldFlat_cover cb' π hstep
              ((scanSplit ((List.range b).map (fun j => cell ++ [j])) (e :: t')).headD [])
              cell n s'
            refine ⟨fun j hj => hmono2 j (hflat.1 j hj), ?_⟩
            intro e' he'
            rcases scanSplit_mem_decomp ((List.range b).map (fun j => cell ++ [j]))
                (e :: t') he' with h | ⟨k, hk, hke⟩
            · exact hmono2 e'.2 (hflat.2 e' h)
            · have hkb : k < b := by simpa using hk
              exact hcov2 k (hord cell k hkb) e' hke

theorem pickFold_spec (g : Nat → Qi) (maxDist : Qi) :
    ∀ (calls : List Nat) (n : Qi) (res : Option Nat),
      (n, res) = calls.foldl (pickFold g) (maxDist, none) →
      n ≤ maxDist ∧ (∀ i ∈ calls, n ≤ g i) ∧
      (res = none → n = maxDist ∧ ∀ i ∈ calls, ¬ (g i < maxDist)) ∧
      (∀ i, res = some i → g i = n ∧ n < maxDist ∧
        ∃ l1 l2, calls = l1 ++ i :: l2 ∧ ∀ j ∈ l1, n < g j) := by
  intro calls
  induction calls using List.reverseRecOn with
  | nil =>
    intro n res hfold
    simp only [List.foldl_nil] at hfold
    obtain ⟨rfl, rfl⟩ := Prod.mk.injEq .. ▸ hfold
    refine ⟨le_refl _, by simp, fun _ => ⟨rfl, by simp⟩, ?_⟩
    intro i hi
    simp at hi
  | append_singleton l a ihl =>
    intro n res hfold
    rw [List.foldl_append, List.foldl_cons, List.foldl_nil] at hfold
    obtain ⟨h1, h2, h3, h4⟩ := ihl (l.foldl (pickFold g) (maxDist, none)).1
      (l.foldl (pickFold g) (maxDist, none)).2 rfl
    unfold pickFold at hfold
    have hn : n = min (g a) (l.foldl (pickFold g) (maxDist, none)).1 :=
      congrArg Prod.fst hfold
    have hres : res = (if g a < (l.foldl (pickFold g) (maxDist, none)).1 then some a
        else (l.foldl (pickFold g) (maxDist, none)).2) :=
      congrArg Prod.snd hfold
    by_cases hlt : g a < (l.foldl (pickFold g) (maxDist, none)).1
    · rw [if_pos hlt] at hres
      have hna : n = g a := by
        rw [hn]
        exact min_eq_left (le_of_lt hlt)
      refine ⟨?_, ?_, ?_, ?_⟩
      · rw [hn]
        exact le_trans (min_le_right _ _) h1
      · intro i hi
        rcases List.mem_append.mp hi with hi' | hi'
        · rw [hn]
          exact le_trans (min_le_right _ _) (h2 i hi')
        · rcases List.mem_singleton.mp hi' with rfl
          rw [hna]
      · intro hrn
        rw [hrn] at hres
        exact absurd hres.symm (by simp)
      · intro i hri
        rw [hri] at hres
        have hai : a = i := Option.some.inj hres.symm
        subst hai
        refine ⟨hna.symm, ?_, l, [], rfl, ?_⟩
        · rw [hna]
          exact lt_of_lt_of_le hlt h1
        · intro j hj
          rw [hna]
          exact lt_of_lt_of_le hlt (h2 j hj)
    · rw [if_neg hlt] at hres
      have hn0 : n = (l.foldl (pickFold g) (maxDist, none)).1 := by
        rw [hn]
        exact min_eq_right (not_lt.mp hlt)
      refine ⟨by rw [hn0]; exact h1, ?_, ?_, ?_⟩
      · intro i hi
        rcases List.mem_append.mp hi with hi' | hi'
        · rw [hn0]
          exact h2 i hi'
        · rcases List.mem_singleton.mp hi' with rfl
          rw [hn]
          exact min_le_left _ _
      · intro hrn
        have hp2 : (l.foldl (pickFold g) (maxDist, none)).2 = none := by
          rw [← hres]
          exact hrn
        obtain ⟨hmax, hall⟩ := h3 hp2
        refine ⟨by rw [hn0]; exact hmax, ?_⟩
        intro i hi
        rcases List.mem_append.mp hi with hi' | hi'
        · exact hall i hi'
        · rcases List.mem_singleton.mp hi' with rfl
          rw [← hmax]
          exact hlt
      · intro i hri
        have hp2 : (l.foldl (pickFold g) (maxDist, none)).2 = some i := by
          rw [← hres]
          exact hri
        obtain ⟨hgi, hlt2, l1, l2, hsplit, hl1⟩ := h4 i hp2
        refine ⟨by rw [hn0]; exact hgi, by rw [hn0]; exact hlt2, l1, l2 ++ [a], ?_, ?_⟩
        · rw [hsplit]
          simp
        · intro j hj
          rw [hn0]
          exact hl1 j hj

/-- C3 counterexample: a geometry whose `should_test` prunes the child cell
`[0]` hides the id with the smallest finite `get_dist` value.  Object 0 has
distance 1 (finite, within `[0, 10]`) and object 1 has distance 5, yet `pick`
returns object 1: the claim's "best_id is the id with the smallest finite
get_dist result within [0, max_dist]" fails for an arbitrary `TestGeometry`. -/
theorem C3_counterexample :
    pickRun 2 1 (fun c _ => ! (c == [0])) (fun _ => [0, 1]) ((10 : ℚ) : Qi) none
      (fun _ _ i => if i = 0 then ((1 : ℚ) : Qi) else ((5 : ℚ) : Qi)) [([0], 0), ([1], 1)] =
      .ok (some (((5 : ℚ) : Qi), 1)) ∧
    (fun (_ : Idx) (_ : Qi) (i : Nat) => if i = 0 then ((1 : ℚ) : Qi) else ((5 : ℚ) : Qi))
      [] ⊤ 0 = ((1 : ℚ) : Qi) ∧
    ((0 : ℚ) ≤ 1 ∧ (1 : ℚ) ≤ 10 ∧ (1 : ℚ) < 5) :=
  ⟨by rfl, by rfl, by norm_num⟩

/-- C3 (amended): for every layer with a sorted, digit-wellformed tree, every
`max_dist`, `max_depth` and pure distance function, and every geometry that
never prunes (`should_test` constantly true) with a `test_order` visiting all
children, `pick` succeeds and returns `Some (final_nearest, best_id)` where
each tree id is handed to `get_dist` exactly once, `final_nearest` is a lower
bound of all distances and of `max_dist`, `best_id`'s distance equals
`final_nearest` which is strictly below `max_dist`, ties are broken by
traversal order (every id called before `best_id` has a strictly larger
distance), and `None` is returned exactly when no id has a finite distance
strictly below `max_dist`. -/
theorem C3_pick_optimality (b MD : Nat) (st : Idx → Qi → Bool) (ord : Idx → List Nat)
    (maxDist : Qi) (maxDepth : Option Nat) (g : Nat → Qi) (tree : List Entry)
    (hst : ∀ c n, st c n = true) (hord : ∀ c k, k < b → k ∈ ord c)
    (hpw : List.Pairwise entryLe tree) (hwf : ∀ e ∈ tree, ∀ d ∈ e.1, d < b) :
    ∃ (n' : Qi) (proc : List Nat) (res : Option Nat) (calls : List Nat),
      test_impl b st ord maxDepth (pickCbI g) MD tree [] maxDist (([], none), []) =
        .ok (n', ((proc, res), calls)) ∧
      pickRun b MD st ord maxDist maxDepth (fun _ _ i => g i) tree =
        .ok (res.map (fun i => (n', i))) ∧
      calls.Nodup ∧
      (∀ i ∈ calls, i ∈ tree.map Prod.snd) ∧
      (∀ i ∈ tree.map Prod.snd, i ∈ calls) ∧
      n' ≤ maxDist ∧ (∀ i ∈ calls, n' ≤ g i) ∧
      (res = none → n' = maxDist ∧ ∀ i ∈ tree.map Prod.snd, ¬ (g i < maxDist)) ∧
      (∀ i, res = some i → g i = n' ∧ n' < maxDist ∧
        ∃ l1 l2, calls = l1 ++ i :: l2 ∧ ∀ j ∈ l1, n' < g j) := by
  obtain ⟨r, hrun⟩ := test_impl_no_panic b st ord maxDepth (pickCbI g) MD tree [] maxDist
    (([], none), []) hpw hwf (fun e _ => rfl)
  refine ⟨r.1, r.2.1.1, r.2.1.2, r.2.2, hrun, ?_, ?_⟩
  · -- simulation: the instrumented run computes pick
    unfold pickRun
    have hsim := test_impl_sim b st ord maxDepth (pickCb (fun _ _ i => g i)) (pickCbI g)
      Prod.fst ?_ MD tree [] maxDist (([], none), [])
    · rw [show (([], none) : List Nat × Option Nat) =
        ((((([] : List Nat), (none : Option Nat)), ([] : List Nat)) :
          (List Nat × Option Nat) × List Nat)).1 from rfl]
      rw [hsim, hrun]
      rfl
    · intro s' c n i
      unfold pickCb pickCbI
      by_cases hmem : i ∈ s'.1.1
      · rw [if_pos hmem, if_pos hmem]
        exact ⟨rfl, rfl⟩
      · rw [if_neg hmem, if_neg hmem]
        exact ⟨rfl, rfl⟩
  · -- invariant: processed = reverse of calls, no duplicate calls, and the
    -- (nearest, result) pair is the pickFold of the call list
    have hinv := test_impl_inv b st ord maxDepth (pickCbI g)
      (fun s n => s.1.1 = s.2.reverse ∧ s.2.Nodup ∧
        (n, s.1.2) = s.2.foldl (pickFold g) (maxDist, none)) ?_
      MD tree [] maxDist (([], none), []) r.1 r.2 (by simp) hrun
    · obtain ⟨hproc, hnodup, hfold⟩ := hinv
      have hspec := pickFold_spec g maxDist r.2.2 r.1 r.2.1.2 hfold
      -- trace: every call id comes from the tree
      have hsub : ∀ i ∈ r.2.2, i ∈ tree.map Prod.snd := by
        intro i hi
        have htr := test_impl_trace b st ord maxDepth (pickCbI g) (fun s => s.2)
          (fun x _ j => x = j) ?_ MD tree [] maxDist (([], none), []) r.1 r.2 hrun i hi
        · rcases htr with h | ⟨c, j, hxj, hj, _, _⟩
          · simp at h
          · exact hxj ▸ hj
        · intro s c n i0
          unfold pickCbI
          by_cases hmem : i0 ∈ s.1.1
          · rw [if_pos hmem]
            exact ⟨[], by simp, by simp⟩
          · rw [if_neg hmem]
            exact ⟨[i0], by simp, by simp⟩
      -- coverage: every tree id is called
      have hcov : ∀ i ∈ tree.map Prod.snd, i ∈ r.2.2 := by
        intro i hi
        obtain ⟨e, he, he2⟩ := List.mem_map.mp hi
        have hc := test_impl_cover b st ord maxDepth (pickCbI g) (fun s => s.1.1) ?_
          hst hord MD tree [] maxDist (([], none), []) r.1 r.2 hrun
        · have hmem0 : e.2 ∈ r.2.1.1 := hc.2 e he
          have this := hmem0
          rw [hproc] at this
          rw [← he2]
          exact List.mem_reverse.mp this
        · intro s c n i0
          unfold pickCbI
          by_cases hmem : i0 ∈ s.1.1
          · rw [if_pos hmem]
            exact ⟨fun j hj => hj, hmem⟩
          · rw [if_neg hmem]
            exact ⟨fun j hj => List.mem_cons_of_mem _ hj, by simp⟩
      obtain ⟨hle, hlow, hnone, hsome⟩ := hspec
      refine ⟨hnodup, hsub, hcov, hle, hlow, ?_, hsome⟩
      intro hrnone
      obtain ⟨hmax, hall⟩ := hnone hrnone
      exact ⟨hmax, fun i hi => hall i (hcov i hi)⟩
    · intro s c n i ⟨hp, hnd, hf⟩
      unfold pickCbI
      by_cases hmem : i ∈ s.1.1
      · rw [if_pos hmem]
        refine ⟨hp, hnd, ?_⟩
        have : min (⊤ : Qi) n = n := min_eq_right le_top
        rw [this]
        exact hf
      · rw [if_neg hmem]
        refine ⟨by simp [hp], ?_, ?_⟩
        · rw [List.nodup_append]
          refine ⟨hnd, by simp, ?_⟩
          intro x hx hy
          rcases List.mem_singleton.mp hy with rfl
          exact hmem (by rw [hp]; exact List.mem_reverse.mpr hx)
        · rw [List.foldl_append, ← hf, List.foldl_cons, List.foldl_nil]
          unfold pickFold
          rfl

/-- Witness for C3 at a concrete input: two objects at the two depth-1 children,
distances 2 and 5, max_dist 10, geometry never prunes, order [0, 1]. -/
theorem C3_witness :
    ∃ (n' : Qi) (proc : List Nat) (res : Option Nat) (calls : List Nat),
      test_impl 2 (fun _ _ => true) (fun _ => [0, 1]) none
          (pickCbI (fun i => if i = 0 then ((2 : ℚ) : Qi) else ((5 : ℚ) : Qi)))
          2 [([0], 0), ([1], 1)] [] ((10 : ℚ) : Qi) (([], none), []) =
        .ok (n', ((proc, res), calls)) ∧
      pickRun 2 2 (fun _ _ => true) (fun _ => [0, 1]) ((10 : ℚ) : Qi) none
          (fun _ _ i => if i = 0 then ((2 : ℚ) : Qi) else ((5 : ℚ) : Qi))
          [([0], 0), ([1], 1)] =
        .ok (res.map (fun i => (n', i))) ∧
      calls.Nodup ∧
      (∀ i ∈ calls, i ∈ ([([0], 0), ([1], 1)] : List Entry).map Prod.snd) ∧
      (∀ i ∈ ([([0], 0), ([1], 1)] : List Entry).map Prod.snd, i ∈ calls) ∧
      n' ≤ ((10 : ℚ) : Qi) ∧
      (∀ i ∈ calls, n' ≤ (if i = 0 then ((2 : ℚ) : Qi) else ((5 : ℚ) : Qi))) ∧
      (res = none → n' = ((10 : ℚ) : Qi) ∧
        ∀ i ∈ ([([0], 0), ([1], 1)] : List Entry).map Prod.snd,
          ¬ ((if i = 0 then ((2 : ℚ) : Qi) else ((5 : ℚ) : Qi)) < ((10 : ℚ) : Qi))) ∧
      (∀ i, res = some i → (if i = 0 then ((2 : ℚ) : Qi) else ((5 : ℚ) : Qi)) = n' ∧
        n' < ((10 : ℚ) : Qi) ∧
        ∃ l1 l2, calls = l1 ++ i :: l2 ∧
          ∀ j ∈ l1, n' < (if j = 0 then ((2 : ℚ) : Qi) else ((5 : ℚ) : Qi))) :=
  C3_pick_optimality 2 2 (fun _ _ => true) (fun _ => [0, 1]) ((10 : ℚ) : Qi) none
    (fun i => if i = 0 then ((2 : ℚ) : Qi) else ((5 : ℚ) : Qi)) [([0], 0), ([1], 1)]
    (fun _ _ => rfl) (fun c k hk => by interval_cases k <;> simp)
    (by decide) (by decide)
